import Mathlib

/-!
Verification of the OkechikaTranslater browser extension's substitution-mapping
pipeline and DOM-rewriting engine.

The development shallowly embeds the JavaScript sources:
  * `src/Chrome/background.js` (and its Firefox twin): `parseCsv`,
    `mappingFromRows`, `fetchFirstWorkingCsv`, `refreshMapping`,
    `sanitizeMappingObject`;
  * `src/FireFox/content.js`: `buildReplacer`, `translateRoot` (per text unit),
    the MutationObserver callback with `isInsideTranslated` and
    `scheduleTranslate`.

Modelling conventions:
  * JavaScript strings are Lean `String`s (lists of characters); `slice` /
    `split` index by characters rather than UTF-16 code units, which agrees
    with JS on every input used in the theorems below.
  * A JavaScript plain object used as a string-keyed dictionary is an
    association list `List (String × String)`; `obj[k] = v` is `objSet`
    (replace in place or append) and reading is `objGet`.  Prototype-chain
    quirks of JS objects (e.g. assigning to the key "__proto__") are outside
    the model, as is the numeric-key reordering of `Object.entries`, which
    affects no claim below (`buildReplacer` re-sorts the entries anyway).
  * `parseInt` applied to an all-digit string is exact `Nat` arithmetic; the
    double-precision rounding of JS numbers on astronomically long digit
    strings is outside the model.
  * Effects (fetching, storage, timestamps) are passed in explicitly; a fetch
    response is a `FetchResponse` value and the persisted cache record is the
    `CacheRecord` returned by `refreshMappingModel`.
-/

/-- Character class of the JavaScript regular-expression `\s` (which already
contains U+3000; the sources' `[\s　]` is the same class) and of the
white space removed by `String.prototype.trim`. -/
def isJsSpace (c : Char) : Bool :=
  c.val == 0x20 || c.val == 0x09 || c.val == 0x0a || c.val == 0x0d ||
  c.val == 0x0b || c.val == 0x0c || c.val == 0xa0 || c.val == 0x1680 ||
  (0x2000 ≤ c.val && c.val ≤ 0x200a) || c.val == 0x2028 || c.val == 0x2029 ||
  c.val == 0x202f || c.val == 0x205f || c.val == 0x3000 || c.val == 0xfeff

/-- JavaScript `String.prototype.trim`. -/
def jsTrim (s : String) : String :=
  String.mk (((s.data.dropWhile isJsSpace).reverse.dropWhile isJsSpace).reverse)

/-- Tokeniser for `trimmed.split(/[\s　]+/).filter(Boolean)` from
`mappingFromRows`: the maximal runs of non-whitespace characters, in order.
`acc` holds the (reversed) characters of the run currently being read. -/
def tokenRunsAux : List Char → List Char → List String
  | [], [] => []
  | [], a :: as => [String.mk ((a :: as).reverse)]
  | c :: cs, [] =>
      if isJsSpace c then tokenRunsAux cs [] else tokenRunsAux cs [c]
  | c :: cs, a :: as =>
      if isJsSpace c then String.mk ((a :: as).reverse) :: tokenRunsAux cs []
      else tokenRunsAux cs (c :: a :: as)

/-- Whitespace-separated tokens of a string (split on `[\s　]+`, empty
pieces discarded). -/
def splitTokens (s : String) : List String :=
  tokenRunsAux s.data []

/-- Maximal runs of a string's characters that are uniformly whitespace or
uniformly non-whitespace: the pieces produced by `split(/(\s+)/)` in
`createSegmentedTranslationFragment`, with the empty pieces (which that
function skips) never materialised. -/
def charRunsAux : List Char → List Char → List String
  | [], [] => []
  | [], a :: as => [String.mk ((a :: as).reverse)]
  | c :: cs, [] => charRunsAux cs [c]
  | c :: cs, a :: as =>
      if isJsSpace c == isJsSpace a then charRunsAux cs (c :: a :: as)
      else String.mk ((a :: as).reverse) :: charRunsAux cs [c]

/-- Runs of whitespace / non-whitespace characters of a string. -/
def charRuns (s : String) : List String :=
  charRunsAux s.data []

/-- Test whether `pat` occurs as a contiguous character sequence of `cs`
(JavaScript `String.prototype.includes`). -/
def containsSeq (pat : List Char) : List Char → Bool
  | [] => pat == []
  | c :: cs => (c :: cs).take pat.length == pat || containsSeq pat cs

/-- JavaScript `haystack.includes(needle)`. -/
def strIncludes (haystack needle : String) : Bool :=
  containsSeq needle.data haystack.data

/-- Test whether the string `k` occurs at the very front of `cs`. -/
def strMatchesFront (k : String) (cs : List Char) : Bool :=
  cs.take k.data.length == k.data

/-- JavaScript object assignment `m[k] = v` on a string-keyed dictionary:
overwrite the existing entry for `k` in place, otherwise append. -/
def objSet (m : List (String × String)) (k v : String) : List (String × String) :=
  match m with
  | [] => [(k, v)]
  | kv :: rest => if kv.1 == k then (k, v) :: rest else kv :: objSet rest k v

/-- JavaScript object read `m[k]` (`undefined` becomes `none`). -/
def objGet (m : List (String × String)) (k : String) : Option String :=
  (m.find? (fun kv => kv.1 == k)).map (·.2)

/-- Value written last for key `k` by a sequence of `objSet` writes. -/
def lastWrite : List (String × String) → String → Option String
  | [], _ => none
  | kv :: rest, k =>
      match lastWrite rest k with
      | some v => some v
      | none => if kv.1 == k then some kv.2 else none

theorem objGet_objSet (m : List (String × String)) (k v a : String) :
    objGet (objSet m k v) a = if k == a then some v else objGet m a := by
  induction m with
  | nil =>
      by_cases h : k == a <;> simp [objSet, objGet, List.find?, h]
  | cons kv rest ih =>
      by_cases hk : kv.1 == k
      · have hk' : kv.1 = k := by simpa using hk
        by_cases ha : k == a <;>
          simp [objSet, objGet, List.find?, hk, hk', ha]
      · by_cases hka : kv.1 == a
        · have h1 : kv.1 = a := by simpa using hka
          have h2 : ¬(k = a) := fun h => hk (by simp [h1, h])
          simp [objSet, objGet, List.find?, hk, hka, h2]
        · by_cases ha : k == a <;>
            simpa [objSet, objGet, List.find?, hk, hka, ha] using ih

theorem objGet_foldl_objSet (l : List (String × String))
    (m0 : List (String × String)) (a : String) :
    objGet (l.foldl (fun m kv => objSet m kv.1 kv.2) m0) a =
      match lastWrite l a with
      | some v => some v
      | none => objGet m0 a := by
  induction l generalizing m0 with
  | nil => simp [lastWrite]
  | cons kv rest ih =>
      simp only [List.foldl_cons, ih, lastWrite]
      cases hres : lastWrite rest a with
      | some v => simp
      | none =>
          by_cases hk : kv.1 == a
          · have hk' : kv.1 = a := by simpa using hk
            simp [hk, objGet_objSet, hk']
          · have hk' : ¬(kv.1 = a) := by simpa using hk
            simp [hk, objGet_objSet, hk']

theorem lastWrite_eq_none_of_forall (l : List (String × String)) (a : String)
    (h : ∀ kv ∈ l, kv.1 ≠ a) : lastWrite l a = none := by
  induction l with
  | nil => rfl
  | cons kv rest ih =>
      have hkv : kv.1 ≠ a := h kv (by simp)
      have hrest := ih (fun kv' hkv' => h kv' (by simp [hkv']))
      simp [lastWrite, hrest, hkv]

/-- A `lastWrite` over `l.filterMap g` is determined by the last element of
`l` that `g` turns into a write of the key `a`. -/
theorem lastWrite_filterMap_of {α : Type} (l : List α)
    (g : α → Option (String × String)) (j : Nat) (hj : j < l.length)
    (a b : String) (hg : g (l.get ⟨j, hj⟩) = some (a, b))
    (hafter : ∀ j' (hj' : j' < l.length), j < j' →
      ∀ v, g (l.get ⟨j', hj'⟩) ≠ some (a, v)) :
    lastWrite (l.filterMap g) a = some b := by
  induction l generalizing j with
  | nil => exact absurd hj (by simp)
  | cons x xs ih =>
      cases j with
      | zero =>
          have hx : g x = some (a, b) := hg
          have hnone : lastWrite (xs.filterMap g) a = none := by
            refine lastWrite_eq_none_of_forall _ _ ?_
            intro kv hkv hbad
            rcases List.mem_filterMap.mp hkv with ⟨x', hx', hgx'⟩
            rcases List.mem_iff_get.mp hx' with ⟨⟨n, hn⟩, hget⟩
            have hget' : xs[n] = x' := by simpa using hget
            have hkv2 : kv = (a, kv.2) := by cases kv; simp_all
            have : g ((x :: xs).get ⟨n + 1, by simpa using Nat.succ_lt_succ hn⟩) =
                some (a, kv.2) := by
              simpa [hget', ← hkv2] using hgx'
            exact hafter (n + 1) (by simpa using Nat.succ_lt_succ hn)
              (Nat.succ_pos n) kv.2 this
          simp [List.filterMap_cons, hx, lastWrite, hnone]
      | succ k =>
          have hk : k < xs.length := by simpa using hj
          have htail : lastWrite (xs.filterMap g) a = some b := by
            refine ih k hk hg ?_
            intro j' hj' hlt v hbad
            exact hafter (j' + 1) (by simpa using Nat.succ_lt_succ hj')
              (Nat.succ_lt_succ hlt) v hbad
          cases hgx : g x with
          | none => simpa [List.filterMap_cons, hgx] using htail
          | some kv => simp [List.filterMap_cons, hgx, lastWrite, htail]

/-! ## Tabular Parser (`parseCsv` in `background.js`)

The source is a single character loop over the input with state
`(rows, row, field, inQuotes)`; `parseCsvAux` transcribes it with the
remaining characters as the recursion argument.  The doubled-quote case
(`text[i + 1] === '"'`, then `i++`) becomes a two-character pattern. -/

def parseCsvAux : Bool → String → List String → List (List String) →
    List Char → List (List String)
  | _, field, row, rows, [] => rows ++ [row ++ [field]]
  | true, field, row, rows, c :: cs =>
      if c = '"' then
        match _h : cs with
        | '"' :: cs2 => parseCsvAux true (field.push '"') row rows cs2
        | _ => parseCsvAux false field row rows cs
      else parseCsvAux true (field.push c) row rows cs
  | false, field, row, rows, c :: cs =>
      if c = '"' then parseCsvAux true field row rows cs
      else if c = ',' then parseCsvAux false "" (row ++ [field]) rows cs
      else if c = '\r' then parseCsvAux false field row rows cs
      else if c = '\n' then parseCsvAux false "" [] (rows ++ [row ++ [field]]) cs
      else parseCsvAux false (field.push c) row rows cs
termination_by _ _ _ _ cs => cs.length
decreasing_by all_goals (subst_vars; simp only [List.length_cons]; omega)

/-- Row in which every cell is empty or whitespace-only (the predicate of the
trailing-row cleanup loop in `parseCsv`). -/
def rowAllEmpty (row : List String) : Bool :=
  row.all (fun c => jsTrim c == "")

/-- Trailing cleanup loop of `parseCsv`: `while` the last row is all-empty,
pop it. -/
def dropTrailingEmptyRows (rows : List (List String)) : List (List String) :=
  (rows.reverse.dropWhile rowAllEmpty).reverse

/-- `parseCsv` from `background.js`. -/
def parseCsv (text : String) : List (List String) :=
  dropTrailingEmptyRows (parseCsvAux false "" [] [] text.data)

/-! Reference semantics for the Tabular Parser, written from the
specification's words (spec section 4.1): a scanner with an explicit
quoted/plain mode. Each branch of `csvScanStep` is one clause of the
contract. -/

/-- Scanner mode: inside or outside a quoted field. -/
inductive CsvScanMode where
  | plain
  | quoted
deriving DecidableEq

/-- Scanner state: finished rows, cells of the current row, characters of the
current cell, and the mode. -/
structure CsvScan where
  done : List (List String)
  cur : List String
  cell : List Char
  mode : CsvScanMode
deriving DecidableEq

/-- One scanner step on character `c` with one character of lookahead; the
returned flag asks the driver to also consume the lookahead character. -/
def csvScanStep (st : CsvScan) (c : Char) (ahead : Option Char) : CsvScan × Bool :=
  match st.mode with
  | .quoted =>
      if c = '"' then
        if ahead = some '"' then
          ({ st with cell := st.cell ++ ['"'] }, true)
        else
          ({ st with mode := .plain }, false)
      else ({ st with cell := st.cell ++ [c] }, false)
  | .plain =>
      if c = '"' then ({ st with mode := .quoted }, false)
      else if c = ',' then
        ({ st with cur := st.cur ++ [String.mk st.cell], cell := [] }, false)
      else if c = '\r' then (st, false)
      else if c = '\n' then
        ({ st with done := st.done ++ [st.cur ++ [String.mk st.cell]],
                   cur := [], cell := [] }, false)
      else ({ st with cell := st.cell ++ [c] }, false)

/-- Drive the scanner over the remaining characters. -/
def csvScanRun (st : CsvScan) : List Char → CsvScan
  | [] => st
  | c :: cs =>
      match csvScanStep st c cs.head? with
      | (st2, true) => csvScanRun st2 cs.tail
      | (st2, false) => csvScanRun st2 cs
termination_by cs => cs.length
decreasing_by all_goals (simp only [List.length_tail, List.length_cons]; omega)

/-- Trailing content after the last separator forms the final row. -/
def csvFinish (st : CsvScan) : List (List String) :=
  st.done ++ [st.cur ++ [String.mk st.cell]]

/-- Row containing at least one cell with non-whitespace content. -/
def rowHasContent (row : List String) : Bool :=
  row.any (fun c => jsTrim c != "")

/-- Removal of trailing rows whose every cell is empty-or-whitespace, stated
recursively: a blank row survives only when some later row has content. -/
def dropTrailingBlankRows : List (List String) → List (List String)
  | [] => []
  | r :: rs =>
      let rest := dropTrailingBlankRows rs
      if rest = [] && !rowHasContent r then [] else r :: rest

/-- Reference Tabular Parser assembled from the specification's clauses. -/
def parseCsvReference (text : String) : List (List String) :=
  dropTrailingBlankRows (csvFinish (csvScanRun ⟨[], [], [], .plain⟩ text.data))

theorem String_mk_data (s : String) : String.mk s.data = s := rfl

theorem String_data_push (s : String) (c : Char) :
    (s.push c).data = s.data ++ [c] := rfl

theorem rowHasContent_eq (row : List String) :
    rowHasContent row = !rowAllEmpty row := by
  induction row with
  | nil => rfl
  | cons c rest ih =>
      simp only [rowHasContent, rowAllEmpty, List.any_cons, List.all_cons,
        Bool.not_and, bne] at ih ⊢
      rw [ih]

theorem dropTrailing_eq (rows : List (List String)) :
    dropTrailingEmptyRows rows = dropTrailingBlankRows rows := by
  induction rows with
  | nil => rfl
  | cons r rs ih =>
      simp only [dropTrailingEmptyRows, List.reverse_cons, List.dropWhile_append,
        dropTrailingBlankRows] at *
      by_cases hemp : (rs.reverse.dropWhile rowAllEmpty).isEmpty
      · have hnil : rs.reverse.dropWhile rowAllEmpty = [] :=
          List.isEmpty_iff.mp hemp
        rw [← ih]
        simp only [dropTrailingEmptyRows, hnil, hemp]
        by_cases hr : rowAllEmpty r <;>
          simp [List.dropWhile, hr, rowHasContent_eq]
      · have hne : rs.reverse.dropWhile rowAllEmpty ≠ [] := by
          simpa [List.isEmpty_iff] using hemp
        rw [← ih]
        simp only [dropTrailingEmptyRows, hemp, if_false]
        simp [rowHasContent_eq, hne]

/-- Source scanner and reference scanner agree from any aligned pair of
states. -/
theorem parseCsvAux_eq_scan (q : Bool) (field : String) (row : List String)
    (rows : List (List String)) (cs : List Char) :
    parseCsvAux q field row rows cs =
      csvFinish (csvScanRun ⟨rows, row, field.data,
        if q then CsvScanMode.quoted else CsvScanMode.plain⟩ cs) := by
  induction q, field, row, rows, cs using parseCsvAux.induct
  case case3 field row rows cs hnot ih =>
    have hh : cs.head? ≠ some '"' := by
      cases cs with
      | nil => simp
      | cons a as =>
          simp only [List.head?_cons, ne_eq, Option.some.injEq]
          intro hEq
          exact hnot as (by simp [hEq])
    simp_all [parseCsvAux, csvScanRun, csvScanStep, csvFinish, String_data_push]
  case case4 field row rows c cs h ih =>
    cases cs with
    | nil =>
        simp_all [parseCsvAux, csvScanRun, csvScanStep, csvFinish,
          String_data_push]
    | cons a as =>
        by_cases ha : a = '"'
        · subst ha
          simp_all [parseCsvAux, csvScanRun, csvScanStep, csvFinish,
            String_data_push]
        · have h3 := parseCsvAux.eq_3 field row rows c (a :: as)
            (by intro cs2 hEq; injection hEq with h1 _; exact ha h1)
          simp_all [csvScanRun, csvScanStep, csvFinish, String_data_push]
  all_goals
    simp_all [parseCsvAux, csvScanRun, csvScanStep, csvFinish, String_data_push,
      String_mk_data]

/-- C6: for every input string the Tabular Parser returns the Raw Table of
the reference semantics assembled from the specification's clauses (quoted
fields with doubled-quote escapes, literal delimiters and separators inside
quotes, carriage returns stripped during plain scanning, unquoted record
separators ending rows, trailing content forming the final row, trailing
blank rows removed).  Both sides are total Lean functions, so the component
cannot raise an exception on any input. -/
theorem c6_tabular_parser_matches_reference (text : String) :
    parseCsv text = parseCsvReference text := by
  unfold parseCsv parseCsvReference
  rw [dropTrailing_eq]
  congr 1
  simpa using parseCsvAux_eq_scan false "" [] [] text.data

/-! ## Replacer Engine (`buildReplacer` in `content.js`)

`buildReplacer` sorts `Object.entries(mapping)` by descending key length
(`Array.prototype.sort` is stable), escapes the keys, joins them into one
global alternation pattern, and replaces each match by its mapped value.
The model keeps the entries as a list, uses the (stable) `List.mergeSort`
for the sort, and gives the alternation/replacement semantics directly:
at each position the first entry (in sorted order) whose key starts there
is replaced by its value and the scan resumes after the matched span;
positions with no match are copied verbatim.  Key lengths are counted in
characters, which coincides with JS string length on the Basic Multilingual
Plane.  An empty key (which no mapping produced by this program contains,
since every builder trims and drops empty keys) matches emptily and the
scan advances one character, mirroring the empty-match advance of
`String.prototype.replace`. -/

/-- Comparator of `entries.sort((a, b) => b[0].length - a[0].length)`:
`a` may stay before `b` when `b`'s key is no longer than `a`'s. -/
def keyLenGe (a b : String × String) : Bool :=
  decide (b.1.length ≤ a.1.length)

/-- Stable sort of the mapping entries by descending key length. -/
def sortEntriesByKeyLength (entries : List (String × String)) :
    List (String × String) :=
  entries.mergeSort keyLenGe

/-- One left-to-right pass of the compiled global replacement over the
input characters. -/
def replaceScan (entries : List (String × String)) : List Char → List Char
  | [] => []
  | c :: cs =>
      match entries.find? (fun kv => strMatchesFront kv.1 (c :: cs)) with
      | none => c :: replaceScan entries cs
      | some kv =>
          if _h : kv.1.data = [] then kv.2.data ++ c :: replaceScan entries cs
          else kv.2.data ++ replaceScan entries (List.drop kv.1.data.length (c :: cs))
termination_by cs => cs.length
decreasing_by
  · simp only [List.length_cons]; omega
  · have hpos : 0 < kv.1.data.length := List.length_pos.mpr _h
    simp only [List.length_drop, List.length_cons]
    omega

/-- The pure text-to-text function compiled from a mapping (the closure
returned by `buildReplacer`). -/
def runReplacer (mapping : List (String × String)) (text : String) : String :=
  String.mk (replaceScan (sortEntriesByKeyLength mapping) text.data)

/-- `buildReplacer` itself: `null` on an empty mapping, otherwise the
compiled function. -/
def buildReplacer (mapping : List (String × String)) : Option (String → String) :=
  if mapping.isEmpty then none else some (runReplacer mapping)

theorem keyLenGe_trans (a b c : String × String) :
    keyLenGe a b → keyLenGe b c → keyLenGe a c := by
  simp only [keyLenGe, decide_eq_true_eq]
  omega

theorem keyLenGe_total (a b : String × String) :
    keyLenGe a b || keyLenGe b a := by
  simp only [keyLenGe, Bool.or_eq_true, decide_eq_true_eq]
  omega

/-- In a list of entries sorted by descending key length with no duplicate
keys, the first entry whose key starts the text "AB" is the entry for the
two-character key "AB" whenever both "AB" and some shorter matching key are
present. -/
theorem find?_AB_of_sorted (l : List (String × String)) (v : String)
    (hsorted : l.Pairwise (fun a b => keyLenGe a b))
    (hnodup : (l.map Prod.fst).Nodup)
    (hAB : ("AB", v) ∈ l) :
    l.find? (fun kv => strMatchesFront kv.1 ['A', 'B']) = some ("AB", v) := by
  induction l with
  | nil => simp at hAB
  | cons h t ih =>
      have hsorted_head : ∀ b ∈ t, keyLenGe h b := (List.pairwise_cons.mp hsorted).1
      have hsorted_tail : t.Pairwise (fun a b => keyLenGe a b) :=
        (List.pairwise_cons.mp hsorted).2
      rw [List.map_cons] at hnodup
      obtain ⟨hnodup_head, hnodup_tail⟩ := List.nodup_cons.mp hnodup
      have hlen_ge : ("AB", v) ∈ t → 2 ≤ h.1.data.length := by
        intro hmem
        have hle := hsorted_head _ hmem
        simp only [keyLenGe, decide_eq_true_eq] at hle
        have h2 : ("AB" : String).length = 2 := rfl
        rw [h2] at hle
        exact hle
      cases hh : strMatchesFront h.1 ['A', 'B'] with
      | true =>
          have htake : (['A', 'B'].take h.1.data.length) = h.1.data := by
            simpa [strMatchesFront] using hh
          rcases hdata : h.1.data with _ | ⟨c1, _ | ⟨c2, _ | ⟨c3, r3⟩⟩⟩
          · -- empty key: it cannot be "AB", and it cannot be sorted before "AB"
            cases hAB with
            | head => simp at hdata
            | tail _ hmem =>
                have := hlen_ge hmem
                rw [hdata] at this
                simp at this
          · -- one-character key: same contradiction
            cases hAB with
            | head => simp at hdata
            | tail _ hmem =>
                have := hlen_ge hmem
                rw [hdata] at this
                simp at this
          · -- the key is exactly "AB"
            have hc : c1 = 'A' ∧ c2 = 'B' := by
              rw [hdata] at htake
              have := htake.symm
              simpa using this
            have hkey : h.1 = "AB" := by
              apply String.ext
              rw [hdata, hc.1, hc.2]
            cases hAB with
            | head => simp [List.find?, hh]
            | tail _ hmem =>
                exact absurd (hkey ▸ (List.mem_map_of_mem Prod.fst hmem)) hnodup_head
          · -- a key of length at least 3 cannot start the two-character text
            rw [hdata] at htake
            have := congrArg List.length htake
            simp at this
      | false =>
          have hne : h ≠ ("AB", v) := by
            intro hEq
            rw [hEq] at hh
            have : strMatchesFront "AB" ['A', 'B'] = true := by decide
            simp [this] at hh
          have hmem : ("AB", v) ∈ t := by
            cases hAB with
            | head => exact absurd rfl hne
            | tail _ hmem => exact hmem
          rw [List.find?_cons_of_neg _ (by simp [hh])]
          exact ih hsorted_tail hnodup_tail hmem

/-- C2: for every mapping with unique keys containing both "AB" and "A",
the compiled replacer applied to "AB" replaces the whole input with the
value mapped for "AB" — the construction sorts keys by descending length
before building the alternation, so the longest applicable key wins. -/
theorem c2_longest_match_precedence (m : List (String × String)) (v w : String)
    (hnodup : (m.map Prod.fst).Nodup)
    (hAB : ("AB", v) ∈ m) (_hA : ("A", w) ∈ m) :
    runReplacer m "AB" = v := by
  unfold runReplacer sortEntriesByKeyLength
  have hperm : List.Perm (m.mergeSort keyLenGe) m := List.mergeSort_perm m keyLenGe
  have hsorted : (m.mergeSort keyLenGe).Pairwise (fun a b => keyLenGe a b) :=
    List.sorted_mergeSort keyLenGe_trans keyLenGe_total m
  have hnodup' : ((m.mergeSort keyLenGe).map Prod.fst).Nodup :=
    ((hperm.map Prod.fst).nodup_iff).mpr hnodup
  have hmem : ("AB", v) ∈ m.mergeSort keyLenGe := List.mem_mergeSort.mpr hAB
  have hfind := find?_AB_of_sorted _ v hsorted hnodup' hmem
  have hdata : ("AB" : String).data = ['A', 'B'] := rfl
  rw [hdata]
  simp only [replaceScan]
  rw [hfind]
  simp [replaceScan, String_mk_data]

/-- Witness for C2 at a concrete mapping where "A" precedes "AB" in
encounter order. -/
theorem c2_longest_match_precedence_witness :
    runReplacer [("A", "x"), ("AB", "y")] "AB" = "y" :=
  c2_longest_match_precedence [("A", "x"), ("AB", "y")] "y" "x"
    (by decide) (by decide) (by decide)

/-! ## Mapping Builder (`mappingFromRows` in `background.js`)

The function is transcribed block by block: strategy 1 collects the
index→plaintext table and maximum index, strategy 2 handles the packed
first row (direct positional pairs, else the modulo fallback), strategy 3
folds the direct-substitution rows over the result.  Each loop is a fold
whose step either skips the element (`continue`) or performs one object
assignment. -/

/-- `getCell(cols, index)`: out-of-range reads produce the empty string. -/
def getCell (cols : List String) (index : Nat) : String :=
  cols.getD index ""

/-- `/^\d+$/.test(String(s ?? "").trim())`. -/
def isNonNegativeIntegerString (s : String) : Bool :=
  let t := jsTrim s
  t != "" && t.data.all Char.isDigit

/-- `Number.parseInt` on an all-digit string (exact arithmetic). -/
def parseNatDigits (s : String) : Nat :=
  s.data.foldl (fun n c => n * 10 + (c.toNat - 48)) 0

/-- `Map.prototype.set` on a `Nat`-keyed map modelled as an association
list: replace in place or append. -/
def natMapSet (m : List (Nat × String)) (k : Nat) (v : String) :
    List (Nat × String) :=
  match m with
  | [] => [(k, v)]
  | kv :: rest => if kv.1 == k then (k, v) :: rest else kv :: natMapSet rest k v

/-- `Map.prototype.get` (`undefined` becomes `none`). -/
def natMapGet (m : List (Nat × String)) (k : Nat) : Option String :=
  (m.find? (fun kv => kv.1 == k)).map (·.2)

/-- Loop body of strategy 1: one row's contribution to `plainByIndex` and
`maxIndex`. -/
def plainIndexStep (acc : List (Nat × String) × Int) (cols : List String) :
    List (Nat × String) × Int :=
  if cols.length < 2 then acc
  else
    let a := jsTrim (getCell cols 0)
    let b := jsTrim (getCell cols 1)
    if a = "" || b = "" then acc
    else if !isNonNegativeIntegerString b then acc
    else
      let idx := parseNatDigits b
      (natMapSet acc.1 idx a,
       if (idx : Int) > acc.2 then (idx : Int) else acc.2)

/-- Strategy 1 of `mappingFromRows`: collect rows whose cell 1 is a decimal
index into `plainByIndex`, tracking `maxIndex` (initially `-1`). -/
def collectPlainByIndex (rows : List (List String)) :
    List (Nat × String) × Int :=
  rows.foldl plainIndexStep ([], -1)

/-- `looksLikePackedFirstRow`. -/
def looksLikePackedFirstRow (firstRowA : String) : Bool :=
  let trimmed := jsTrim firstRowA
  if trimmed = "" then false
  else (splitTokens trimmed).length ≥ 100

/-- Packed detection on a Raw Table: row 0's cell 0 splits into at least
100 tokens. -/
def mappingPacked (rows : List (List String)) : Bool :=
  looksLikePackedFirstRow (getCell (rows.getD 0 []) 0)

/-- Strategy 2, direct branch: positional pairs of the packed cipher and
plaintext token lists, skipping pairs with an empty side. -/
def packedDirectFold (cipherTokens plainTokens : List String) :
    List (String × String) :=
  (List.zip cipherTokens plainTokens).foldl
    (fun m kv => if kv.1 = "" || kv.2 = "" then m else objSet m kv.1 kv.2) []

/-- Strategy 2, fallback branch: token `i` of the packed cipher list maps to
`plainByIndex.get(i % base)`. -/
def moduloFallbackFold (cipherTokens : List String)
    (plainByIndex : List (Nat × String)) (base : Nat) :
    List (String × String) :=
  cipherTokens.enum.foldl
    (fun m ic =>
      match natMapGet plainByIndex (ic.1 % base) with
      | none => m
      | some to' =>
          if ic.2 = "" || to' = "" then m else objSet m ic.2 to') []

/-- Strategy 2 of `mappingFromRows` in full. -/
def packedStageMapping (rows : List (List String)) : List (String × String) :=
  let pm := collectPlainByIndex rows
  let firstRowA := getCell (rows.getD 0 []) 0
  if looksLikePackedFirstRow firstRowA then
    let firstRowB := getCell (rows.getD 0 []) 1
    let cipherTokens := splitTokens (jsTrim firstRowA)
    let plainTokens := splitTokens (jsTrim firstRowB)
    if plainTokens.length ≥ 100 then packedDirectFold cipherTokens plainTokens
    else
      let base : Int := if pm.2 ≥ 0 then pm.2 + 1 else 0
      if pm.1.length ≥ 10 && base > 0 then
        moduloFallbackFold cipherTokens pm.1 base.toNat
      else []
  else []

/-- Strategy 3 write attempted for the row at index `i`: `none` when the
loop `continue`s, otherwise the `mapping[from] = to` assignment. -/
def strat3WriteOf (packed : Bool) (icols : Nat × List String) :
    Option (String × String) :=
  if icols.2.length < 2 then none
  else if packed && icols.1 == 0 then none
  else
    let src := jsTrim (getCell icols.2 0)
    let dst := jsTrim (getCell icols.2 1)
    if src = "" || dst = "" then none else some (src, dst)

/-- Strategy 3 of `mappingFromRows`: fold the direct-substitution rows over
the mapping produced by strategy 2. -/
def strat3Fold (packed : Bool) (m0 : List (String × String))
    (rows : List (List String)) : List (String × String) :=
  rows.enum.foldl
    (fun m icols =>
      match strat3WriteOf packed icols with
      | none => m
      | some kv => objSet m kv.1 kv.2) m0

/-- `mappingFromRows` from `background.js`. -/
def mappingFromRows (rows : List (List String)) : List (String × String) :=
  strat3Fold (mappingPacked rows) (packedStageMapping rows) rows

theorem foldl_objSet_guard {α : Type} (g : α → Option (String × String))
    (l : List α) (m0 : List (String × String)) :
    l.foldl (fun m x => match g x with
      | none => m
      | some kv => objSet m kv.1 kv.2) m0
      = (l.filterMap g).foldl (fun m kv => objSet m kv.1 kv.2) m0 := by
  induction l generalizing m0 with
  | nil => rfl
  | cons x xs ih => cases hg : g x <;> simp [List.filterMap_cons, hg, ih]

/-- Reads from the final mapping are resolved by the last strategy-3 write
when there is one, and fall back to the strategy-2 (packed) mapping. -/
theorem objGet_mappingFromRows (rows : List (List String)) (a : String) :
    objGet (mappingFromRows rows) a =
      match lastWrite (rows.enum.filterMap (strat3WriteOf (mappingPacked rows))) a with
      | some v => some v
      | none => objGet (packedStageMapping rows) a := by
  unfold mappingFromRows strat3Fold
  rw [foldl_objSet_guard, objGet_foldl_objSet]

/-- C3 (amended): for every Raw Table and every row (other than a packed
row 0) whose trimmed cells 0 and 1 are both non-empty and that is the last
such row for its trimmed cell 0, the final Mapping's entry for that trimmed
cell 0 equals that trimmed cell 1, regardless of what strategies 1 and 2
produced for the same key — strategy 3 runs last and overwrites, including
rows whose cell 1 is numeric.  (The "last such row" proviso is forced by
the counterexample `c3_counterexample`: with duplicate keys the loop's
last write wins.) -/
theorem c3_direct_rows_overwrite (rows : List (List String)) (j : Nat)
    (hj : j < rows.length)
    (hskip : ¬(mappingPacked rows = true ∧ j = 0))
    (hlen : 2 ≤ (rows.get ⟨j, hj⟩).length)
    (ha : jsTrim (getCell (rows.get ⟨j, hj⟩) 0) ≠ "")
    (hb : jsTrim (getCell (rows.get ⟨j, hj⟩) 1) ≠ "")
    (hlast : ∀ j' (hj' : j' < rows.length), j < j' →
      2 ≤ (rows.get ⟨j', hj'⟩).length →
      jsTrim (getCell (rows.get ⟨j', hj'⟩) 0) = jsTrim (getCell (rows.get ⟨j, hj⟩) 0) →
      jsTrim (getCell (rows.get ⟨j', hj'⟩) 1) = "") :
    objGet (mappingFromRows rows) (jsTrim (getCell (rows.get ⟨j, hj⟩) 0))
      = some (jsTrim (getCell (rows.get ⟨j, hj⟩) 1)) := by
  set packed := mappingPacked rows with hpacked
  set a := jsTrim (getCell (rows.get ⟨j, hj⟩) 0) with hadef
  set b := jsTrim (getCell (rows.get ⟨j, hj⟩) 1) with hbdef
  have hjlen : j < rows.enum.length := by simpa using hj
  have henumj : rows.enum.get ⟨j, hjlen⟩ = (j, rows.get ⟨j, hj⟩) := by
    simp [List.getElem_enum]
  have hg : strat3WriteOf packed (rows.enum.get ⟨j, hjlen⟩) = some (a, b) := by
    rw [henumj]
    simp only [strat3WriteOf]
    have h1 : ¬(rows.get ⟨j, hj⟩).length < 2 := by omega
    have h2 : (packed && j == 0) = false := by
      by_cases hp : packed = true
      · have hz : ¬(j = 0) := fun hz => hskip ⟨hp, hz⟩
        simp [hp, hz]
      · rw [Bool.not_eq_true] at hp
        simp [hp]
    rw [if_neg h1, if_neg (by simp [h2])]
    rw [if_neg (by simpa using not_or.mpr ⟨ha, hb⟩)]
  have hafter : ∀ j' (hj' : j' < rows.enum.length), j < j' →
      ∀ v, strat3WriteOf packed (rows.enum.get ⟨j', hj'⟩) ≠ some (a, v) := by
    intro j' hj' hlt v hbad
    have hj'' : j' < rows.length := by simpa using hj'
    have henumj' : rows.enum.get ⟨j', hj'⟩ = (j', rows.get ⟨j', hj''⟩) := by
      simp [List.getElem_enum]
    rw [henumj'] at hbad
    simp only [strat3WriteOf] at hbad
    by_cases h1 : (rows.get ⟨j', hj''⟩).length < 2
    · rw [if_pos h1] at hbad
      exact Option.noConfusion hbad
    · rw [if_neg h1] at hbad
      by_cases h2 : (packed && j' == 0) = true
      · rw [if_pos (by simpa using h2)] at hbad
        exact Option.noConfusion hbad
      · rw [if_neg (by simpa using h2)] at hbad
        by_cases h3 : jsTrim (getCell (rows.get ⟨j', hj''⟩) 0) = ""
          ∨ jsTrim (getCell (rows.get ⟨j', hj''⟩) 1) = ""
        · rw [if_pos (by simpa using h3)] at hbad
          exact Option.noConfusion hbad
        · rw [if_neg (by simpa using h3)] at hbad
          push_neg at h3
          have hkey : jsTrim (getCell (rows.get ⟨j', hj''⟩) 0) = a :=
            congrArg Prod.fst (Option.some.inj hbad)
          have hval : jsTrim (getCell (rows.get ⟨j', hj''⟩) 1) = v :=
            congrArg Prod.snd (Option.some.inj hbad)
          exact h3.2 (hlast j' hj'' hlt (by omega) hkey)
  have hlw := lastWrite_filterMap_of rows.enum (strat3WriteOf packed) j hjlen a b hg hafter
  rw [objGet_mappingFromRows, ← hpacked, hlw]

theorem String_mk_ne_empty_of (l : List Char) (h : l ≠ []) :
    String.mk l ≠ "" := by
  intro hEq
  exact h (by simpa using congrArg String.data hEq)

theorem tokenRunsAux_ne_empty (cs : List Char) (acc : List Char) :
    ∀ t ∈ tokenRunsAux cs acc, t ≠ "" := by
  induction cs generalizing acc with
  | nil =>
      intro t ht
      cases acc with
      | nil => simp [tokenRunsAux] at ht
      | cons a as =>
          simp only [tokenRunsAux, List.mem_singleton] at ht
          subst ht
          exact String_mk_ne_empty_of _ (by simp)
  | cons c cs ih =>
      intro t ht
      cases acc with
      | nil =>
          by_cases hsp : isJsSpace c
          · simp only [tokenRunsAux, hsp, if_true] at ht
            exact ih [] t ht
          · simp only [tokenRunsAux, hsp, if_false] at ht
            exact ih [c] t ht
      | cons a as =>
          by_cases hsp : isJsSpace c
          · simp only [tokenRunsAux, hsp, if_true] at ht
            rcases List.mem_cons.mp ht with hEq | hmem
            · subst hEq
              exact String_mk_ne_empty_of _ (by simp)
            · exact ih [] t hmem
          · simp only [tokenRunsAux, hsp, if_false] at ht
            exact ih (c :: a :: as) t ht

theorem splitTokens_ne_empty (s : String) : ∀ t ∈ splitTokens s, t ≠ "" :=
  tokenRunsAux_ne_empty s.data []

/-- Inversion of a successful strategy-3 write. -/
theorem strat3WriteOf_some_inv (packed : Bool) (i : Nat) (cols : List String)
    (a b : String) (h : strat3WriteOf packed (i, cols) = some (a, b)) :
    2 ≤ cols.length ∧ ¬(packed = true ∧ i = 0) ∧
    jsTrim (getCell cols 0) = a ∧ jsTrim (getCell cols 1) = b ∧
    a ≠ "" ∧ b ≠ "" := by
  unfold strat3WriteOf at h
  by_cases h1 : cols.length < 2
  · rw [if_pos h1] at h; exact Option.noConfusion h
  · rw [if_neg h1] at h
    by_cases h2 : (packed && i == 0) = true
    · rw [if_pos (by simpa using h2)] at h; exact Option.noConfusion h
    · rw [if_neg (by simpa using h2)] at h
      by_cases h3 : jsTrim (getCell cols 0) = "" ∨ jsTrim (getCell cols 1) = ""
      · rw [if_pos (by simpa using h3)] at h; exact Option.noConfusion h
      · rw [if_neg (by simpa using h3)] at h
        push_neg at h3
        have hkey : jsTrim (getCell cols 0) = a := by
          simpa using congrArg Prod.fst (Option.some.inj h)
        have hval : jsTrim (getCell cols 1) = b := by
          simpa using congrArg Prod.snd (Option.some.inj h)
        refine ⟨by omega, ?_, hkey, hval, ?_, ?_⟩
        · intro ⟨hp, hi⟩
          exact h2 (by simp [hp, hi])
        · exact hkey ▸ h3.1
        · exact hval ▸ h3.2

/-- The guarded write of the packed-direct loop. -/
def pairWriteOf (kv : String × String) : Option (String × String) :=
  if kv.1 = "" || kv.2 = "" then none else some kv

theorem packedDirectFold_eq (A B : List String) :
    packedDirectFold A B =
      ((A.zip B).filterMap pairWriteOf).foldl
        (fun m kv => objSet m kv.1 kv.2) [] := by
  rw [← foldl_objSet_guard]
  unfold packedDirectFold
  congr 1
  funext m kv
  unfold pairWriteOf
  by_cases h : kv.1 = "" || kv.2 = "" <;> simp [h]

/-- The guarded write of the modulo-fallback loop. -/
def moduloWriteOf (plainByIndex : List (Nat × String)) (base : Nat)
    (ic : Nat × String) : Option (String × String) :=
  match natMapGet plainByIndex (ic.1 % base) with
  | none => none
  | some to' => if ic.2 = "" || to' = "" then none else some (ic.2, to')

theorem moduloFallbackFold_eq (cipherTokens : List String)
    (plainByIndex : List (Nat × String)) (base : Nat) :
    moduloFallbackFold cipherTokens plainByIndex base =
      (cipherTokens.enum.filterMap (moduloWriteOf plainByIndex base)).foldl
        (fun m kv => objSet m kv.1 kv.2) [] := by
  rw [← foldl_objSet_guard]
  unfold moduloFallbackFold
  congr 1
  funext m ic
  unfold moduloWriteOf
  cases natMapGet plainByIndex (ic.1 % base) with
  | none => simp
  | some to' => by_cases h : ic.2 = "" || to' = "" <;> simp [h]

theorem getD_eq_getElem_of_lt {α : Type} (l : List α) (n : Nat) (d : α)
    (h : n < l.length) : l.getD n d = l[n] := by
  simp [List.getD_eq_getElem?_getD, List.getElem?_eq_getElem h]

/-- When the table is packed and no direct-substitution row (rows 1 and on)
writes the key `tok`, strategy 3 contributes no entry for `tok`. -/
theorem strat3_lastWrite_none (rows : List (List String)) (tok : String)
    (hpack : mappingPacked rows = true)
    (hnodirect : ∀ j (hj : j < rows.length), 1 ≤ j →
      2 ≤ (rows.get ⟨j, hj⟩).length →
      jsTrim (getCell (rows.get ⟨j, hj⟩) 0) = tok →
      jsTrim (getCell (rows.get ⟨j, hj⟩) 1) = "") :
    lastWrite (rows.enum.filterMap (strat3WriteOf (mappingPacked rows))) tok
      = none := by
  apply lastWrite_eq_none_of_forall
  intro kv hkv hbad
  rcases List.mem_filterMap.mp hkv with ⟨x, hx, hgx⟩
  have hx' := List.mem_enum_iff_getElem?.mp hx
  obtain ⟨hlt, hget⟩ := List.getElem?_eq_some_iff.mp hx'
  have hgx' : strat3WriteOf (mappingPacked rows) (x.1, x.2) = some (kv.1, kv.2) := by
    simpa using hgx
  obtain ⟨hlen2, hnp0, hkey, hval, hkne, hvne⟩ :=
    strat3WriteOf_some_inv (mappingPacked rows) x.1 x.2 kv.1 kv.2 hgx'
  have hx1pos : 1 ≤ x.1 := by
    rcases Nat.eq_zero_or_pos x.1 with hz | hp
    · exact absurd ⟨hpack, hz⟩ hnp0
    · exact hp
  have hrow : rows.get ⟨x.1, hlt⟩ = x.2 := by simpa using hget
  have := hnodirect x.1 hlt hx1pos (by rw [hrow]; exact hlen2)
    (by rw [hrow, hkey]; exact hbad)
  rw [hrow, hval] at this
  exact hvne this

/-- C4 (amended): for every Raw Table whose row 0 cell 0 splits into at
least 100 tokens and whose row 0 cell 1 also splits into at least 100
tokens, the builder takes the packed-direct branch — the strategy-2 stage
equals the positional-pair fold, so no modulo-fallback entry exists — and
the built Mapping maps token `i` of cell 0 to token `i` of cell 1 for every
`i` below the shorter token-list length, provided token `i` does not recur
later in cell 0's token list and no later direct-substitution row redefines
that token.  (Both provisos are forced by `c4_counterexample`: a repeated
packed token and a direct row each overwrite the positional pair.) -/
theorem c4_packed_direct_positional (rows : List (List String)) (i : Nat)
    (hA : 100 ≤ (splitTokens (jsTrim (getCell (rows.getD 0 []) 0))).length)
    (hB : 100 ≤ (splitTokens (jsTrim (getCell (rows.getD 0 []) 1))).length)
    (hiA : i < (splitTokens (jsTrim (getCell (rows.getD 0 []) 0))).length)
    (hiB : i < (splitTokens (jsTrim (getCell (rows.getD 0 []) 1))).length)
    (hnorepeat : ∀ i', i < i' →
      i' < (splitTokens (jsTrim (getCell (rows.getD 0 []) 0))).length →
      (splitTokens (jsTrim (getCell (rows.getD 0 []) 0))).getD i' "" ≠
        (splitTokens (jsTrim (getCell (rows.getD 0 []) 0))).getD i "")
    (hnodirect : ∀ j (hj : j < rows.length), 1 ≤ j →
      2 ≤ (rows.get ⟨j, hj⟩).length →
      jsTrim (getCell (rows.get ⟨j, hj⟩) 0) =
        (splitTokens (jsTrim (getCell (rows.getD 0 []) 0))).getD i "" →
      jsTrim (getCell (rows.get ⟨j, hj⟩) 1) = "") :
    packedStageMapping rows =
      packedDirectFold (splitTokens (jsTrim (getCell (rows.getD 0 []) 0)))
        (splitTokens (jsTrim (getCell (rows.getD 0 []) 1))) ∧
    objGet (mappingFromRows rows)
        ((splitTokens (jsTrim (getCell (rows.getD 0 []) 0))).getD i "")
      = some ((splitTokens (jsTrim (getCell (rows.getD 0 []) 1))).getD i "") := by
  set A := splitTokens (jsTrim (getCell (rows.getD 0 []) 0)) with hAdef
  set B := splitTokens (jsTrim (getCell (rows.getD 0 []) 1)) with hBdef
  have hne : jsTrim (getCell (rows.getD 0 []) 0) ≠ "" := by
    intro h0
    rw [hAdef, h0] at hiA
    simp [splitTokens, tokenRunsAux] at hiA
  have hpack : mappingPacked rows = true := by
    unfold mappingPacked looksLikePackedFirstRow
    simp only [hne, if_false]
    exact decide_eq_true hA
  have hstage : packedStageMapping rows = packedDirectFold A B := by
    unfold packedStageMapping
    simp only [← hAdef, ← hBdef]
    rw [if_pos ?hlooks]
    case hlooks =>
      have := hpack
      unfold mappingPacked at this
      exact this
    rw [if_pos (by simpa using hB)]
  have htok_mem : A.getD i "" ∈ A := by
    rw [getD_eq_getElem_of_lt A i "" hiA]
    exact List.getElem_mem hiA
  have htok_ne : A.getD i "" ≠ "" := splitTokens_ne_empty _ _ htok_mem
  have hBtok_mem : B.getD i "" ∈ B := by
    rw [getD_eq_getElem_of_lt B i "" hiB]
    exact List.getElem_mem hiB
  have hBtok_ne : B.getD i "" ≠ "" := splitTokens_ne_empty _ _ hBtok_mem
  refine ⟨hstage, ?_⟩
  rw [objGet_mappingFromRows]
  rw [strat3_lastWrite_none rows (A.getD i "") hpack hnodirect]
  rw [hstage, packedDirectFold_eq, objGet_foldl_objSet]
  have hizip : i < (A.zip B).length := by
    simp only [List.length_zip]
    omega
  have hzget : (A.zip B).get ⟨i, hizip⟩ = (A.getD i "", B.getD i "") := by
    rw [getD_eq_getElem_of_lt A i "" hiA, getD_eq_getElem_of_lt B i "" hiB]
    simp [List.getElem_zip]
  have hg : pairWriteOf ((A.zip B).get ⟨i, hizip⟩)
      = some (A.getD i "", B.getD i "") := by
    rw [hzget]
    unfold pairWriteOf
    rw [if_neg (by simpa using not_or.mpr ⟨htok_ne, hBtok_ne⟩)]
  have hafter : ∀ i' (hi' : i' < (A.zip B).length), i < i' →
      ∀ v, pairWriteOf ((A.zip B).get ⟨i', hi'⟩) ≠ some (A.getD i "", v) := by
    intro i' hi' hlt v hbad
    have hi'A : i' < A.length := by
      simp only [List.length_zip] at hi'
      omega
    have hi'B : i' < B.length := by
      simp only [List.length_zip] at hi'
      omega
    have hzget' : (A.zip B).get ⟨i', hi'⟩ = (A[i'], B[i']) := by
      simp [List.getElem_zip]
    rw [hzget'] at hbad
    unfold pairWriteOf at hbad
    by_cases hc : A[i'] = "" ∨ B[i'] = ""
    · rw [if_pos (by simpa using hc)] at hbad
      exact Option.noConfusion hbad
    · rw [if_neg (by simpa using hc)] at hbad
      have hkey : A[i'] = A.getD i "" := congrArg Prod.fst (Option.some.inj hbad)
      have : A.getD i' "" = A.getD i "" := by
        rw [getD_eq_getElem_of_lt A i' "" hi'A]
        exact hkey
      exact hnorepeat i' hlt hi'A this
  have hlw := lastWrite_filterMap_of (A.zip B) pairWriteOf i hizip
    (A.getD i "") (B.getD i "") hg hafter
  rw [hlw]

theorem mem_natMapSet (m : List (Nat × String)) (k : Nat) (v : String) :
    ∀ kv ∈ natMapSet m k v, kv = (k, v) ∨ kv ∈ m := by
  induction m with
  | nil => intro kv hkv; simpa [natMapSet] using hkv
  | cons x xs ih =>
      intro kv hkv
      by_cases hx : x.1 == k
      · simp only [natMapSet, hx, if_true] at hkv
        rcases List.mem_cons.mp hkv with hEq | hm
        · exact Or.inl hEq
        · exact Or.inr (List.mem_cons.mpr (Or.inr hm))
      · simp only [natMapSet, hx, if_false] at hkv
        rcases List.mem_cons.mp hkv with hEq | hm
        · exact Or.inr (List.mem_cons.mpr (Or.inl hEq))
        · rcases ih kv hm with hl | hr
          · exact Or.inl hl
          · exact Or.inr (List.mem_cons.mpr (Or.inr hr))

theorem plainIndexStep_val_ne (acc : List (Nat × String) × Int)
    (cols : List String) (hacc : ∀ kv ∈ acc.1, kv.2 ≠ "") :
    ∀ kv ∈ (plainIndexStep acc cols).1, kv.2 ≠ "" := by
  unfold plainIndexStep
  by_cases h1 : cols.length < 2
  · rw [if_pos h1]; exact hacc
  · rw [if_neg h1]
    by_cases h2 : jsTrim (getCell cols 0) = "" ∨ jsTrim (getCell cols 1) = ""
    · rw [if_pos (by simpa using h2)]; exact hacc
    · rw [if_neg (by simpa using h2)]
      push_neg at h2
      by_cases h3 : isNonNegativeIntegerString (jsTrim (getCell cols 1))
      · rw [if_neg (by simpa using h3)]
        intro kv hkv
        rcases mem_natMapSet _ _ _ kv hkv with hEq | hm
        · rw [hEq]; exact h2.1
        · exact hacc kv hm
      · rw [if_pos (by simpa using h3)]
        exact hacc

theorem foldl_plainIndexStep_val_ne (rows : List (List String))
    (acc : List (Nat × String) × Int) (hacc : ∀ kv ∈ acc.1, kv.2 ≠ "") :
    ∀ kv ∈ (rows.foldl plainIndexStep acc).1, kv.2 ≠ "" := by
  induction rows generalizing acc with
  | nil => exact hacc
  | cons r rs ih =>
      intro kv hkv
      exact ih (plainIndexStep acc r) (plainIndexStep_val_ne acc r hacc) kv hkv

/-- Every plaintext value collected by strategy 1 is non-empty. -/
theorem collectPlainByIndex_val_ne (rows : List (List String)) :
    ∀ kv ∈ (collectPlainByIndex rows).1, kv.2 ≠ "" :=
  foldl_plainIndexStep_val_ne rows ([], -1) (by simp)

/-- C5 (amended): for every Raw Table whose row 0 cell 0 splits into at
least 100 tokens (the packed trigger — the claim's 25-token example cannot
fire the fallback, see `c5_counterexample`), whose row 0 cell 1 does not
split into 100 tokens, and whose strategy-1 table has at least 10 entries
and a non-negative maximum index, the built Mapping maps token `i` of
cell 0 to the indexed-plaintext entry at index `i mod (maxIndex + 1)`
(when present), under the same two non-interference provisos as the
packed-direct case. -/
theorem c5_modulo_fallback (rows : List (List String)) (i : Nat) (p : String)
    (hA : 100 ≤ (splitTokens (jsTrim (getCell (rows.getD 0 []) 0))).length)
    (hBsmall : ¬ 100 ≤ (splitTokens (jsTrim (getCell (rows.getD 0 []) 1))).length)
    (hsize : 10 ≤ (collectPlainByIndex rows).1.length)
    (hmax : 0 ≤ (collectPlainByIndex rows).2)
    (hiA : i < (splitTokens (jsTrim (getCell (rows.getD 0 []) 0))).length)
    (hp : natMapGet (collectPlainByIndex rows).1
        (i % ((collectPlainByIndex rows).2 + 1).toNat) = some p)
    (hnorepeat : ∀ i', i < i' →
      i' < (splitTokens (jsTrim (getCell (rows.getD 0 []) 0))).length →
      (splitTokens (jsTrim (getCell (rows.getD 0 []) 0))).getD i' "" ≠
        (splitTokens (jsTrim (getCell (rows.getD 0 []) 0))).getD i "")
    (hnodirect : ∀ j (hj : j < rows.length), 1 ≤ j →
      2 ≤ (rows.get ⟨j, hj⟩).length →
      jsTrim (getCell (rows.get ⟨j, hj⟩) 0) =
        (splitTokens (jsTrim (getCell (rows.getD 0 []) 0))).getD i "" →
      jsTrim (getCell (rows.get ⟨j, hj⟩) 1) = "") :
    objGet (mappingFromRows rows)
        ((splitTokens (jsTrim (getCell (rows.getD 0 []) 0))).getD i "")
      = some p := by
  set A := splitTokens (jsTrim (getCell (rows.getD 0 []) 0)) with hAdef
  have hne : jsTrim (getCell (rows.getD 0 []) 0) ≠ "" := by
    intro h0
    rw [hAdef, h0] at hiA
    simp [splitTokens, tokenRunsAux] at hiA
  have hpack : mappingPacked rows = true := by
    unfold mappingPacked looksLikePackedFirstRow
    simp only [hne, if_false]
    exact decide_eq_true hA
  have hpne : p ≠ "" := by
    rcases Option.map_eq_some'.mp hp with ⟨kv, hfind, hval⟩
    have hmem := List.mem_of_find?_eq_some hfind
    exact hval ▸ collectPlainByIndex_val_ne rows kv hmem
  have hbasepos : (0 : Int) < (collectPlainByIndex rows).2 + 1 := by omega
  have hstage : packedStageMapping rows =
      moduloFallbackFold A (collectPlainByIndex rows).1
        (((collectPlainByIndex rows).2 + 1).toNat) := by
    have hlooks : looksLikePackedFirstRow (getCell (rows.getD 0 []) 0) = true := hpack
    unfold packedStageMapping
    simp only [hlooks, if_true, ← hAdef]
    rw [if_neg hBsmall]
    rw [if_pos hmax]
    rw [if_pos (by simp only [Bool.and_eq_true, decide_eq_true_eq]; exact ⟨hsize, hbasepos⟩)]
  have htok : A.getD i "" = A.get ⟨i, hiA⟩ := getD_eq_getElem_of_lt A i "" hiA
  have htok_ne : A.getD i "" ≠ "" := by
    rw [htok]
    exact splitTokens_ne_empty _ _ (List.getElem_mem hiA)
  rw [objGet_mappingFromRows]
  rw [strat3_lastWrite_none rows (A.getD i "") hpack hnodirect]
  rw [hstage, moduloFallbackFold_eq, objGet_foldl_objSet]
  have hienum : i < A.enum.length := by simpa using hiA
  have henumi : A.enum.get ⟨i, hienum⟩ = (i, A.get ⟨i, hiA⟩) := by
    simp [List.getElem_enum]
  have hg : moduloWriteOf (collectPlainByIndex rows).1
      (((collectPlainByIndex rows).2 + 1).toNat) (A.enum.get ⟨i, hienum⟩)
      = some (A.getD i "", p) := by
    rw [henumi]
    unfold moduloWriteOf
    have hAi_ne : A.get ⟨i, hiA⟩ ≠ "" := htok ▸ htok_ne
    have hAi_ne2 : ¬A[i] = "" := hAi_ne
    simp only [hp]
    simp [hAi_ne2, hpne, htok, List.get_eq_getElem, List.getElem?_eq_getElem hiA]
  have hafter : ∀ i' (hi' : i' < A.enum.length), i < i' →
      ∀ v, moduloWriteOf (collectPlainByIndex rows).1
        (((collectPlainByIndex rows).2 + 1).toNat) (A.enum.get ⟨i', hi'⟩)
        ≠ some (A.getD i "", v) := by
    intro i' hi' hlt v hbad
    have hi'A : i' < A.length := by simpa using hi'
    have henumi' : A.enum.get ⟨i', hi'⟩ = (i', A.get ⟨i', hi'A⟩) := by
      simp [List.getElem_enum]
    rw [henumi'] at hbad
    unfold moduloWriteOf at hbad
    cases hq : natMapGet (collectPlainByIndex rows).1
        (i' % ((collectPlainByIndex rows).2 + 1).toNat) with
    | none => simp [hq] at hbad
    | some q =>
        simp only [hq] at hbad
        by_cases hc : A.get ⟨i', hi'A⟩ = "" ∨ q = ""
        · rw [if_pos (by simpa using hc)] at hbad
          exact Option.noConfusion hbad
        · rw [if_neg (by simpa using hc)] at hbad
          have hkey : A.get ⟨i', hi'A⟩ = A.getD i "" :=
            congrArg Prod.fst (Option.some.inj hbad)
          have : A.getD i' "" = A.getD i "" := by
            rw [getD_eq_getElem_of_lt A i' "" hi'A]
            exact hkey
          exact hnorepeat i' hlt hi'A this
  have hlw := lastWrite_filterMap_of A.enum
    (moduloWriteOf (collectPlainByIndex rows).1
      (((collectPlainByIndex rows).2 + 1).toNat)) i hienum
    (A.getD i "") p hg hafter
  rw [hlw]

theorem nodup_getD_ne (l : List String) (hnd : l.Nodup) (i i' : Nat)
    (hi : i < l.length) (hi' : i' < l.length) (hne : i' ≠ i) :
    l.getD i' "" ≠ l.getD i "" := by
  rw [getD_eq_getElem_of_lt l i' "" hi', getD_eq_getElem_of_lt l i "" hi]
  intro hEq
  exact hne ((hnd.getElem_inj_iff).mp hEq)

/-- Concrete token `pre ++ i` used by the packed-row test tables. -/
def tokStr (pre : String) (i : Nat) : String := pre ++ toString i

/-- One packed cell of 100 distinct tokens `pre0 … pre99`. -/
def packedCell (pre : String) : String :=
  String.intercalate " " ((List.range 100).map (tokStr pre))

/-- Packed table followed by a direct-substitution row that redefines the
first packed token. -/
def rowsC4ce1 : List (List String) :=
  [[packedCell "t", packedCell "u"], ["t0", "Z"]]

/-- Packed table whose cipher cell repeats its first token at position 99. -/
def rowsC4ce2 : List (List String) :=
  [[String.intercalate " " (((List.range 99).map (tokStr "t")) ++ ["t0"]),
    packedCell "u"]]

/-- Packed table with only the packed row (used by the C4 witness). -/
def rowsC4w : List (List String) := [[packedCell "t", packedCell "u"]]

set_option maxRecDepth 100000 in
set_option maxHeartbeats 2000000 in
/-- C4 counterexample: both row-0 cells of `rowsC4ce1` and `rowsC4ce2` split
into 100 tokens with token 0 = "t0" / "u0", yet the built Mapping sends
"t0" to "Z" (a later direct row overwrites the positional pair) in the
first table and to "u99" (a repeated packed token overwrites it) in the
second — not to "u0" as the claim states for i = 0. -/
theorem c4_counterexample :
    ((splitTokens (jsTrim (getCell (rowsC4ce1.getD 0 []) 0))).length = 100 ∧
     (splitTokens (jsTrim (getCell (rowsC4ce1.getD 0 []) 1))).length = 100 ∧
     (splitTokens (jsTrim (getCell (rowsC4ce1.getD 0 []) 0))).getD 0 "" = "t0" ∧
     (splitTokens (jsTrim (getCell (rowsC4ce1.getD 0 []) 1))).getD 0 "" = "u0" ∧
     objGet (mappingFromRows rowsC4ce1) "t0" = some "Z") ∧
    ((splitTokens (jsTrim (getCell (rowsC4ce2.getD 0 []) 0))).length = 100 ∧
     (splitTokens (jsTrim (getCell (rowsC4ce2.getD 0 []) 1))).length = 100 ∧
     (splitTokens (jsTrim (getCell (rowsC4ce2.getD 0 []) 0))).getD 0 "" = "t0" ∧
     (splitTokens (jsTrim (getCell (rowsC4ce2.getD 0 []) 1))).getD 0 "" = "u0" ∧
     objGet (mappingFromRows rowsC4ce2) "t0" = some "u99") ∧
    some ("Z" : String) ≠ some "u0" ∧ some ("u99" : String) ≠ some "u0" := by
  decide

set_option maxRecDepth 100000 in
set_option maxHeartbeats 4000000 in
/-- Witness for the amended C4 at the one-row packed table `rowsC4w` and
position 0: "t0" maps to "u0" and the strategy-2 stage is the positional
fold. -/
theorem c4_packed_direct_positional_witness :
    packedStageMapping rowsC4w =
      packedDirectFold (splitTokens (jsTrim (getCell (rowsC4w.getD 0 []) 0)))
        (splitTokens (jsTrim (getCell (rowsC4w.getD 0 []) 1))) ∧
    objGet (mappingFromRows rowsC4w)
        ((splitTokens (jsTrim (getCell (rowsC4w.getD 0 []) 0))).getD 0 "")
      = some ((splitTokens (jsTrim (getCell (rowsC4w.getD 0 []) 1))).getD 0 "") := by
  refine c4_packed_direct_positional rowsC4w 0 (by decide) (by decide) (by decide)
    (by decide) ?_ ?_
  · intro i' h0 hl
    refine nodup_getD_ne _ ?_ 0 i' (by decide) hl (by omega)
    decide
  · intro j hj h1 _ _
    exfalso
    have : j < 1 := by simpa [rowsC4w] using hj
    omega

/-- Raw Table of the C5 counterexample: a 25-token cell 0 (as in the claim)
and ten indexed rows ("p0","0") … ("p9","9"). -/
def rowsC5ce : List (List String) :=
  [String.intercalate " " ((List.range 25).map (tokStr "c")), ""]
    :: (List.range 10).map (fun i => [tokStr "p" i, toString i])

set_option maxRecDepth 100000 in
set_option maxHeartbeats 2000000 in
/-- C5 counterexample: with a 25-token cell 0 the packed trigger (≥ 100
tokens) never fires, so no modulo-fallback entry is built at all — token 0
("c0") is absent from the Mapping instead of mapping to
indexed-plaintext[0 mod 10] = "p0" as the claim states. -/
theorem c5_counterexample :
    (splitTokens (jsTrim (getCell (rowsC5ce.getD 0 []) 0))).length = 25 ∧
    (splitTokens (jsTrim (getCell (rowsC5ce.getD 0 []) 0))).getD 0 "" = "c0" ∧
    (collectPlainByIndex rowsC5ce).1.length = 10 ∧
    natMapGet (collectPlainByIndex rowsC5ce).1 (0 % 10) = some "p0" ∧
    objGet (mappingFromRows rowsC5ce) "c0" = none ∧
    (none : Option String) ≠ some "p0" := by
  decide

/-- Raw Table of the C5 witness: a 100-token cell 0, an empty cell 1 and
ten indexed rows. -/
def rowsC5w : List (List String) :=
  [packedCell "c", ""]
    :: (List.range 10).map (fun i => [tokStr "p" i, toString i])

set_option maxRecDepth 100000 in
set_option maxHeartbeats 4000000 in
/-- Witness for the amended C5 at `rowsC5w` and position 0: token "c0" maps
to indexed-plaintext[0 mod 10] = "p0". -/
theorem c5_modulo_fallback_witness :
    objGet (mappingFromRows rowsC5w)
        ((splitTokens (jsTrim (getCell (rowsC5w.getD 0 []) 0))).getD 0 "")
      = some "p0" := by
  refine c5_modulo_fallback rowsC5w 0 "p0" (by decide) (by decide) (by decide)
    (by decide) (by decide) (by decide) ?_ ?_
  · intro i' h0 hl
    refine nodup_getD_ne _ ?_ 0 i' (by decide) hl (by omega)
    decide
  · intro j hj h1 hlen hkey
    exfalso
    have htok0 : (splitTokens (jsTrim (getCell (rowsC5w.getD 0 []) 0))).getD 0 ""
        = "c0" := by decide
    rw [htok0] at hkey
    have hj11 : j < 11 := by simpa [rowsC5w] using hj
    interval_cases j
    · rw [show (⟨1, hj⟩ : Fin rowsC5w.length) = ⟨1, by decide⟩ from rfl] at hkey
      exact absurd hkey (by decide)
    · rw [show (⟨2, hj⟩ : Fin rowsC5w.length) = ⟨2, by decide⟩ from rfl] at hkey
      exact absurd hkey (by decide)
    · rw [show (⟨3, hj⟩ : Fin rowsC5w.length) = ⟨3, by decide⟩ from rfl] at hkey
      exact absurd hkey (by decide)
    · rw [show (⟨4, hj⟩ : Fin rowsC5w.length) = ⟨4, by decide⟩ from rfl] at hkey
      exact absurd hkey (by decide)
    · rw [show (⟨5, hj⟩ : Fin rowsC5w.length) = ⟨5, by decide⟩ from rfl] at hkey
      exact absurd hkey (by decide)
    · rw [show (⟨6, hj⟩ : Fin rowsC5w.length) = ⟨6, by decide⟩ from rfl] at hkey
      exact absurd hkey (by decide)
    · rw [show (⟨7, hj⟩ : Fin rowsC5w.length) = ⟨7, by decide⟩ from rfl] at hkey
      exact absurd hkey (by decide)
    · rw [show (⟨8, hj⟩ : Fin rowsC5w.length) = ⟨8, by decide⟩ from rfl] at hkey
      exact absurd hkey (by decide)
    · rw [show (⟨9, hj⟩ : Fin rowsC5w.length) = ⟨9, by decide⟩ from rfl] at hkey
      exact absurd hkey (by decide)
    · rw [show (⟨10, hj⟩ : Fin rowsC5w.length) = ⟨10, by decide⟩ from rfl] at hkey
      exact absurd hkey (by decide)

/-- C3 counterexample: in the table [["A","B"], ["A","C"]] (not packed),
row 0 has non-empty trimmed cells "A" and "B", yet the final Mapping's
entry for "A" is "C": the strategy-3 loop writes duplicate keys in row
order, so a later row with the same trimmed cell 0 overwrites an earlier
one, refuting the claim as stated for row 0. -/
theorem c3_counterexample :
    mappingPacked [["A", "B"], ["A", "C"]] = false ∧
    jsTrim (getCell (["A", "B"] : List String) 0) = "A" ∧
    jsTrim (getCell (["A", "B"] : List String) 1) = "B" ∧
    objGet (mappingFromRows [["A", "B"], ["A", "C"]]) "A" = some "C" ∧
    some ("C" : String) ≠ some "B" := by
  decide

/-- Witness for the amended C3 at the same table: row 1 is the last row
with trimmed cell 0 "A", and the final entry is its trimmed cell 1. -/
theorem c3_direct_rows_overwrite_witness :
    objGet (mappingFromRows [["A", "B"], ["A", "C"]]) "A" = some "C" := by
  have h := c3_direct_rows_overwrite [["A", "B"], ["A", "C"]] 1 (by decide)
    (by decide) (by decide) (by decide) (by decide)
    (by
      intro j' hj' hlt _ _
      exfalso
      have h2 : j' < 2 := by simpa using hj'
      omega)
  exact h

/-! ## DOM Rewriting Engine (`translateRoot` in `content.js`)

`translateRoot` walks the text nodes of a root and processes each logical
text unit.  A unit is either a plain text node — whose current value is
`cur`, with an optional out-of-band original in the `ORIGINAL_TEXT_BY_NODE`
side table — or a structured wrapper (`span.okechika-translated` with the
`data-okechika-original` marker attribute) holding the rendered children
built by `fillTranslatedContainer`.  The model captures the per-unit
branch structure of the loop body: whitespace-only plain nodes are
skipped; a wrapper is re-rendered from its stored original alone
(`processedWrappers` makes this happen once per pass, and the ruby→span
legacy conversion produces the same refilled container, so both wrapper
branches are one constructor here); a changed plain node becomes a wrapper
when the parent can host one (`canWrapWithSpan`) and is mutated in place
with its original remembered out-of-band otherwise.  The returned flag is
the unit's contribution to `changedNodes`. -/

/-- A rendered child of a translated container: a plain text node or a
`ruby` pair with base text and `rt` text. -/
inductive RenderSeg where
  | plainText (s : String)
  | rubyPair (base : String) (rt : String)
deriving DecidableEq

/-- `createTranslatedRuby`: the ruby-orientation toggle decides which of
original/translated is the base and which the annotation text. -/
def createTranslatedRuby (rubySwap : Bool) (original translated : String) :
    RenderSeg :=
  if rubySwap then RenderSeg.rubyPair original translated
  else RenderSeg.rubyPair translated original

/-- `createSegmentedTranslationFragment`: split the original on whitespace
runs (kept verbatim) and emit a ruby pair exactly for the segments whose
mapped form differs. -/
def createSegmentedTranslationFragment (rubySwap : Bool)
    (replaceFn : String → String) (originalText : String) : List RenderSeg :=
  (charRuns originalText).map (fun part =>
    if part.data.all isJsSpace then RenderSeg.plainText part
    else
      let translated := replaceFn part
      if translated = part then RenderSeg.plainText part
      else createTranslatedRuby rubySwap part translated)

/-- One logical text unit of the document. -/
inductive TextUnit where
  | plainNode (cur : String) (stored : Option String)
  | wrapper (original : String) (rendered : List RenderSeg)
deriving DecidableEq

/-- One pass of `translateRoot` over a single unit, returning the updated
unit and its contribution to `changedNodes`. -/
def translateUnitStep (replaceFn : String → String) (rubySwap canWrap : Bool) :
    TextUnit → TextUnit × Bool
  | .wrapper original _ =>
      (.wrapper original
        (createSegmentedTranslationFragment rubySwap replaceFn original), true)
  | .plainNode cur stored =>
      if jsTrim cur = "" then (.plainNode cur stored, false)
      else
        let original := stored.getD cur
        let after := replaceFn original
        if after ≠ cur then
          if canWrap then
            (.wrapper original
              (createSegmentedTranslationFragment rubySwap replaceFn original),
             true)
          else
            (.plainNode after (some (stored.getD original)), true)
        else (.plainNode cur stored, false)

/-- Rendered content of a unit as the page shows it. -/
def renderUnit : TextUnit → List RenderSeg
  | .plainNode cur _ => [RenderSeg.plainText cur]
  | .wrapper _ rendered => rendered

/-- The original text a later pass would recompute from (`none` when the
unit has never been rewritten). -/
def storedOriginalOf : TextUnit → Option String
  | .plainNode _ stored => stored
  | .wrapper original _ => some original

/-- C1: for every mapping and every text unit that the engine rewrites on
its first pass (so `changedNodes` counted it), the wrapper or side table
stores exactly the pre-translation text `T`, and the unit after the first
application is a fixed point of the pass — every later pass recomputes from
the stored `T` alone and leaves the rendered result of the first
application unchanged, never feeding translated output back through the
replacer. -/
theorem c1_rederivation_idempotent (m : List (String × String))
    (rubySwap canWrap : Bool) (T : String)
    (hchanged : (translateUnitStep (runReplacer m) rubySwap canWrap
        (TextUnit.plainNode T none)).2 = true) :
    storedOriginalOf (translateUnitStep (runReplacer m) rubySwap canWrap
        (TextUnit.plainNode T none)).1 = some T ∧
    ∀ n, (fun u => (translateUnitStep (runReplacer m) rubySwap canWrap u).1)^[n]
        (translateUnitStep (runReplacer m) rubySwap canWrap
          (TextUnit.plainNode T none)).1
      = (translateUnitStep (runReplacer m) rubySwap canWrap
          (TextUnit.plainNode T none)).1 := by
  by_cases hws : jsTrim T = ""
  · exfalso
    simp [translateUnitStep, hws] at hchanged
  · by_cases hch : runReplacer m T = T
    · exfalso
      simp [translateUnitStep, hws, hch] at hchanged
    · have hstep : translateUnitStep (runReplacer m) rubySwap canWrap
          (TextUnit.plainNode T none) =
          (if canWrap then
            (TextUnit.wrapper T
              (createSegmentedTranslationFragment rubySwap (runReplacer m) T),
             true)
          else (TextUnit.plainNode (runReplacer m T) (some T), true)) := by
        simp [translateUnitStep, hws, hch]
      cases canWrap with
      | true =>
          rw [hstep]
          simp only [if_true]
          constructor
          · rfl
          · intro n
            apply Function.iterate_fixed
            rfl
      | false =>
          rw [hstep]
          simp only [Bool.false_eq_true, if_false]
          constructor
          · rfl
          · intro n
            apply Function.iterate_fixed
            show (translateUnitStep (runReplacer m) rubySwap false
                (TextUnit.plainNode (runReplacer m T) (some T))).1
              = TextUnit.plainNode (runReplacer m T) (some T)
            simp only [translateUnitStep, Option.getD_some]
            split_ifs with h1 h2 h3
            · rfl
            · exact absurd rfl h2
            · exact absurd rfl h2
            · rfl

/-- C10: a plain text node whose computed replacement (from its tracked
original, or its current text when none is tracked) equals its current
text is left completely untouched: no wrapper is inserted, the node value
is not written, no side-table entry is recorded, and `changedNodes` is not
incremented. -/
theorem c10_unchanged_node_untouched (m : List (String × String))
    (rubySwap canWrap : Bool) (cur : String) (stored : Option String)
    (hsame : runReplacer m (stored.getD cur) = cur) :
    translateUnitStep (runReplacer m) rubySwap canWrap
      (TextUnit.plainNode cur stored) = (TextUnit.plainNode cur stored, false) := by
  by_cases hws : jsTrim cur = "" <;>
    simp [translateUnitStep, hws, hsame]

theorem runReplacer_single_hit : runReplacer [("A", "B")] "A" = "B" := by
  unfold runReplacer sortEntriesByKeyLength
  rw [show ("A" : String).data = ['A'] from rfl]
  rw [List.mergeSort_singleton]
  simp only [replaceScan]
  rw [show List.find? (fun kv => strMatchesFront kv.1 ['A']) [("A", "B")]
      = some ("A", "B") from by decide]
  simp [replaceScan]

theorem runReplacer_single_miss : runReplacer [("A", "B")] "C" = "C" := by
  unfold runReplacer sortEntriesByKeyLength
  rw [show ("C" : String).data = ['C'] from rfl]
  rw [List.mergeSort_singleton]
  simp only [replaceScan]
  rw [show List.find? (fun kv => strMatchesFront kv.1 ['C']) [("A", "B")]
      = none from by decide]

/-- Witness for C1 at the mapping A→B and the unit "A": the stored original
is "A" and two further passes leave the unit fixed. -/
theorem c1_rederivation_idempotent_witness :
    storedOriginalOf (translateUnitStep (runReplacer [("A", "B")]) false true
        (TextUnit.plainNode "A" none)).1 = some "A" ∧
    (fun u => (translateUnitStep (runReplacer [("A", "B")]) false true u).1)^[2]
        (translateUnitStep (runReplacer [("A", "B")]) false true
          (TextUnit.plainNode "A" none)).1
      = (translateUnitStep (runReplacer [("A", "B")]) false true
          (TextUnit.plainNode "A" none)).1 := by
  have h := c1_rederivation_idempotent [("A", "B")] false true "A" (by
    simp [translateUnitStep, runReplacer_single_hit,
      show jsTrim "A" ≠ "" from by decide])
  exact ⟨h.1, h.2 2⟩

/-- Witness for C10 at the mapping A→B and an untouched node "C". -/
theorem c10_unchanged_node_untouched_witness :
    translateUnitStep (runReplacer [("A", "B")]) false true
      (TextUnit.plainNode "C" none) = (TextUnit.plainNode "C" none, false) :=
  c10_unchanged_node_untouched [("A", "B")] false true "C" none
    runReplacer_single_miss

/-! ## Mutation Tracker (MutationObserver callback in `content.js`)

The callback and `scheduleTranslate` are modelled over a minimal DOM: a
node is an element with a class list and an optional parent, or a text
node with an optional parent.  The pending-region `Set` is a list with
membership-tested insertion, `scheduled` and `isApplying` are the two
flags of the source.  The scheduled microtask (`queueMicrotask` body in
`scheduleTranslate`) is `drainScheduledPass`, which returns the roots on
which `translateRoot` is invoked; the unconditional re-walk of open shadow
roots inside the same microtask is outside this model. -/

/-- Minimal DOM node: element with classes and parent, or text node. -/
inductive DomNode where
  | element (classes : List String) (parent : Option DomNode)
  | textNode (parent : Option DomNode)

/-- Structural equality on model nodes, standing in for the reference
identity the page's `Set` uses. -/
def domNodeBeq : DomNode → DomNode → Bool
  | .element c1 p1, .element c2 p2 =>
      c1 == c2 &&
        match p1, p2 with
        | none, none => true
        | some q1, some q2 => domNodeBeq q1 q2
        | _, _ => false
  | .textNode p1, .textNode p2 =>
      match p1, p2 with
      | none, none => true
      | some q1, some q2 => domNodeBeq q1 q2
      | _, _ => false
  | _, _ => false

/-- `node.parentElement`. -/
def parentElementOf : DomNode → Option DomNode
  | .element _ p | .textNode p =>
      match p with
      | some (DomNode.element cls q) => some (.element cls q)
      | _ => none

/-- `el.classList.contains("okechika-translated")`. -/
def hasTranslatedClass : DomNode → Bool
  | .element classes _ => classes.contains "okechika-translated"
  | .textNode _ => false

/-- `el.closest(".okechika-translated")` as a Boolean: the element or one
of its ancestors carries the marker class. -/
def closestTranslated : DomNode → Bool
  | .element classes p =>
      classes.contains "okechika-translated" ||
        (match p with
         | some q => closestTranslated q
         | none => false)
  | .textNode _ => false

/-- The element `isInsideTranslated` inspects: the node itself for an
element, its parent element for a text node. -/
def elOf : DomNode → Option DomNode
  | e@(.element ..) => some e
  | t@(.textNode _) => parentElementOf t

/-- `isInsideTranslated` from `content.js`. -/
def isInsideTranslated (node : DomNode) : Bool :=
  match elOf node with
  | none => false
  | some el => hasTranslatedClass el || closestTranslated el

def isTextNode : DomNode → Bool
  | .textNode _ => true
  | _ => false

def isElementNode : DomNode → Bool
  | .element .. => true
  | _ => false

/-- State shared between the observer callback and the scheduled pass. -/
structure TrackerState where
  pendingRoots : List DomNode
  scheduled : Bool
  isApplying : Bool

/-- One MutationObserver record (characterData or childList). -/
structure MutationRecord where
  isCharacterData : Bool
  target : DomNode
  addedNodes : List DomNode

/-- `Set.prototype.add` on the pending-region set. -/
def addPending (s : List DomNode) (n : DomNode) : List DomNode :=
  if s.any (fun x => domNodeBeq x n) then s else s ++ [n]

/-- What one mutation record adds to the pending set. -/
def recordPending (body : DomNode) (s : List DomNode) (mrec : MutationRecord) :
    List DomNode :=
  if mrec.isCharacterData then
    if isTextNode mrec.target then
      if isInsideTranslated mrec.target then s
      else addPending s ((parentElementOf mrec.target).getD body)
    else s
  else
    mrec.addedNodes.foldl (fun s2 node =>
      if isInsideTranslated node then s2
      else if isElementNode node then addPending s2 node
      else if isTextNode node then addPending s2 ((parentElementOf node).getD body)
      else s2) s

/-- The MutationObserver callback: all notifications are ignored while a
pass is applying; otherwise pending regions accumulate and, when enabled,
`scheduleTranslate` queues at most one microtask.  The flag of the result
says whether a new microtask was queued. -/
def observerCallback (enabled : Bool) (body : DomNode) (st : TrackerState)
    (ms : List MutationRecord) : TrackerState × Bool :=
  if st.isApplying then (st, false)
  else
    let pending := ms.foldl (recordPending body) st.pendingRoots
    if !enabled then ({ st with pendingRoots := pending }, false)
    else if st.scheduled then ({ st with pendingRoots := pending }, false)
    else ({ st with pendingRoots := pending, scheduled := true }, true)

/-- The scheduled microtask of `scheduleTranslate`: reset `scheduled`,
drain the pending set atomically, and unless re-entered while applying,
hand the element roots that are not inside an engine-produced wrapper to
`translateRoot`.  Returns the post-state and those roots. -/
def drainScheduledPass (st : TrackerState) : TrackerState × List DomNode :=
  let st1 : TrackerState := { st with scheduled := false, pendingRoots := [] }
  if st.isApplying then (st1, [])
  else (st1, st.pendingRoots.filter
    (fun r => !isInsideTranslated r && isElementNode r))

theorem foldl_added_inside (body : DomNode) (s : List DomNode)
    (l : List DomNode) (h : ∀ n ∈ l, isInsideTranslated n = true) :
    l.foldl (fun s2 node =>
      if isInsideTranslated node then s2
      else if isElementNode node then addPending s2 node
      else if isTextNode node then addPending s2 ((parentElementOf node).getD body)
      else s2) s = s := by
  induction l generalizing s with
  | nil => rfl
  | cons n rest ih =>
      have hn := h n (by simp)
      simp only [List.foldl_cons, hn, if_true]
      exact ih s (fun n' hn' => h n' (by simp [hn']))

theorem recordPending_inside (body : DomNode) (s : List DomNode)
    (mrec : MutationRecord)
    (h1 : mrec.isCharacterData = true → isInsideTranslated mrec.target = true)
    (h2 : mrec.isCharacterData = false →
      ∀ n ∈ mrec.addedNodes, isInsideTranslated n = true) :
    recordPending body s mrec = s := by
  unfold recordPending
  cases hcd : mrec.isCharacterData
  · simp only [Bool.false_eq_true, if_false]
    exact foldl_added_inside body s mrec.addedNodes (h2 hcd)
  · simp only [if_true]
    cases ht : isTextNode mrec.target
    · simp
    · simp [h1 hcd]

theorem foldl_recordPending_inside (body : DomNode) (ms : List MutationRecord)
    (s : List DomNode)
    (hms : ∀ mrec ∈ ms,
      (mrec.isCharacterData = true → isInsideTranslated mrec.target = true) ∧
      (mrec.isCharacterData = false →
        ∀ n ∈ mrec.addedNodes, isInsideTranslated n = true)) :
    ms.foldl (recordPending body) s = s := by
  induction ms generalizing s with
  | nil => rfl
  | cons mrec rest ih =>
      have hm := hms mrec (by simp)
      simp only [List.foldl_cons, recordPending_inside body s mrec hm.1 hm.2]
      exact ih s (fun m hmem => hms m (by simp [hmem]))

/-- C9: mutations whose affected nodes all lie inside engine-produced
wrappers add nothing to the pending set; while a pass is applying, the
callback ignores every notification outright; and the scheduled pass never
hands a region inside a wrapper to the rewriting engine. -/
theorem c9_mutation_self_suppression (enabled : Bool) (body : DomNode)
    (st : TrackerState) (ms : List MutationRecord)
    (hms : ∀ mrec ∈ ms,
      (mrec.isCharacterData = true → isInsideTranslated mrec.target = true) ∧
      (mrec.isCharacterData = false →
        ∀ n ∈ mrec.addedNodes, isInsideTranslated n = true)) :
    (observerCallback enabled body st ms).1.pendingRoots = st.pendingRoots ∧
    (st.isApplying = true → observerCallback enabled body st ms = (st, false)) ∧
    (∀ r ∈ (drainScheduledPass st).2, isInsideTranslated r = false) := by
  have hfold : ms.foldl (recordPending body) st.pendingRoots = st.pendingRoots :=
    foldl_recordPending_inside body ms st.pendingRoots hms
  refine ⟨?_, ?_, ?_⟩
  · unfold observerCallback
    by_cases happ : st.isApplying
    · simp [happ]
    · simp only [happ, if_false]
      by_cases hen : enabled <;> by_cases hsc : st.scheduled <;>
        simp [hen, hsc, hfold]
  · intro happ
    unfold observerCallback
    simp [happ]
  · intro r hr
    unfold drainScheduledPass at hr
    by_cases happ : st.isApplying
    · simp [happ] at hr
    · simp only [happ, if_false] at hr
      have := List.of_mem_filter hr
      simp only [Bool.and_eq_true, Bool.not_eq_true'] at this
      exact this.1

/-- Wrapper element carrying the engine's marker class, with a text child;
plus the page body and an idle tracker state, for the C9 witness. -/
def wrapperNodeW : DomNode := DomNode.element ["okechika-translated"] none

def wrapperTextW : DomNode := DomNode.textNode (some wrapperNodeW)

def bodyNodeW : DomNode := DomNode.element [] none

def trackerStateW : TrackerState := ⟨[], false, false⟩

/-- Mutations produced by programmatically inserting a wrapper: a childList
record adding the wrapper subtree's nodes and a characterData record on the
wrapper's text child. -/
def mutationsW : List MutationRecord :=
  [⟨false, bodyNodeW, [wrapperNodeW, wrapperTextW]⟩, ⟨true, wrapperTextW, []⟩]

/-- Witness for C9 at a concrete engine-produced wrapper insertion. -/
theorem c9_mutation_self_suppression_witness :
    (observerCallback true bodyNodeW trackerStateW mutationsW).1.pendingRoots
      = trackerStateW.pendingRoots ∧
    (trackerStateW.isApplying = true →
      observerCallback true bodyNodeW trackerStateW mutationsW
        = (trackerStateW, false)) ∧
    (∀ r ∈ (drainScheduledPass trackerStateW).2, isInsideTranslated r = false) :=
  c9_mutation_self_suppression true bodyNodeW trackerStateW mutationsW
    (by decide)

/-! ## Mapping Source and Refresh (`fetchFirstWorkingCsv`, `refreshMapping`)

The network effect is passed in as a `FetchResponse` value; the
classification chain of `fetchFirstWorkingCsv` and the persistence
decision of `refreshMapping` (the record written to
`chrome.storage.local`) are pure functions of it.  Timestamps and
durations of the stored record are omitted.  In `refreshMapping` the
per-URL `catch` discards the typed fetch error and the loop epilogue
throws its own "Mapping is empty" error, so every failure path persists
that record (ok:false, no status) — the typed distinction lives in
`fetchFirstWorkingCsv`, faithfully to the source. -/

/-- Shape of an awaited `fetch` response. -/
structure FetchResponse where
  ok : Bool
  status : Nat
  statusText : String
  body : String

/-- Result of `fetchFirstWorkingCsv`: the typed errors it can throw, or
the CSV text it returns. -/
inductive FetchOutcome where
  | httpError (status : Nat) (url : String) (bodySnippet : String)
  | emptyCsv (status : Nat) (url : String)
  | nonCsvHtml (status : Nat) (url : String) (bodySnippet : String)
  | csvText (url : String) (text : String) (status : Nat)
deriving DecidableEq

/-- ASCII `String.prototype.toLowerCase` (sufficient for the HTML-tag
check). -/
def jsToLower (s : String) : String := String.mk (s.data.map Char.toLower)

/-- `fetchFirstWorkingCsv` applied to an arrived response. -/
def fetchFirstWorkingCsv (url : String) (res : FetchResponse) : FetchOutcome :=
  if !res.ok then .httpError res.status url (res.body.take 300)
  else if res.body = "" || jsTrim res.body = "" then .emptyCsv res.status url
  else
    let head := jsToLower (res.body.take 2000)
    if strIncludes head "<html" || strIncludes head "<!doctype html" then
      .nonCsvHtml res.status url (res.body.take 300)
    else .csvText url res.body res.status

/-- `sanitizeMappingObject` from the Firefox background script: keys are
trimmed and must be non-empty; entries whose value trims to the empty
string are dropped; the stored value is the original (untrimmed) one. -/
def sanitizeMappingObject (obj : List (String × String)) :
    List (String × String) :=
  obj.foldl (fun out kv =>
    let key := jsTrim kv.1
    let val := kv.2
    if key = "" then out
    else if jsTrim val = "" then out
    else objSet out key val) []

/-- Object-spread merge: start from `base`, then write every entry of
`over` (so `over` wins on key collision). -/
def objSpread (base over : List (String × String)) : List (String × String) :=
  over.foldl (fun m kv => objSet m kv.1 kv.2) base

/-- The Cache Record persisted under the well-known storage key. -/
inductive CacheRecord where
  | okRecord (mapping : List (String × String)) (sourceUrl : String) (count : Nat)
  | failRecord (error : String) (status : Option Nat)
      (privateOrAuthRequired : Bool) (bodySnippet : Option String)
      (sourceUrlCandidates : List String)
deriving DecidableEq

/-- Success flag of a record (its `ok` field). -/
def isOkRecord : CacheRecord → Bool
  | .okRecord .. => true
  | .failRecord .. => false

/-- The failure record `refreshMapping` persists when no usable mapping
was obtained (its outer catch of the post-loop throw). -/
def mappingEmptyFailure (urls : List String) : CacheRecord :=
  .failRecord "Mapping is empty (check A列→B列 and sheet contents)" none false
    none urls

/-- `refreshMapping` for the single configured URL, given the fetch
response and the stored override object: the record persisted to storage. -/
def refreshMappingModel (url : String) (res : FetchResponse)
    (storedOverrides : List (String × String)) : CacheRecord :=
  match fetchFirstWorkingCsv url res with
  | .csvText u text _ =>
      let m := mappingFromRows (parseCsv text)
      if m.isEmpty then mappingEmptyFailure [url]
      else
        let merged := objSpread m (sanitizeMappingObject storedOverrides)
        .okRecord merged u merged.length
  | _ => mappingEmptyFailure [url]

/-- C7: for every HTTP-success response, an empty-or-all-whitespace body is
classified as the empty-response failure and a body whose first 2000
characters contain an HTML opening tag (case-insensitively) as the
unexpected-format failure; the two classifications are distinct values,
and in both cases `refresh()` persists a failure Cache Record (ok false),
never a success record. -/
theorem c7_fetch_failure_classification (url : String) (res : FetchResponse)
    (overrides : List (String × String)) (hok : res.ok = true) :
    (jsTrim res.body = "" →
      fetchFirstWorkingCsv url res = .emptyCsv res.status url ∧
      refreshMappingModel url res overrides = mappingEmptyFailure [url] ∧
      isOkRecord (refreshMappingModel url res overrides) = false) ∧
    (jsTrim res.body ≠ "" →
      (strIncludes (jsToLower (res.body.take 2000)) "<html" = true ∨
       strIncludes (jsToLower (res.body.take 2000)) "<!doctype html" = true) →
      fetchFirstWorkingCsv url res
        = .nonCsvHtml res.status url (res.body.take 300) ∧
      refreshMappingModel url res overrides = mappingEmptyFailure [url] ∧
      isOkRecord (refreshMappingModel url res overrides) = false) ∧
    (∀ s₁ s₂ u₁ u₂ sn,
      FetchOutcome.emptyCsv s₁ u₁ ≠ FetchOutcome.nonCsvHtml s₂ u₂ sn) := by
  refine ⟨?_, ?_, ?_⟩
  · intro hempty
    have hfetch : fetchFirstWorkingCsv url res = .emptyCsv res.status url := by
      unfold fetchFirstWorkingCsv
      rw [if_neg (by simp [hok])]
      rw [if_pos (by simp [hempty])]
    refine ⟨hfetch, ?_, ?_⟩
    · unfold refreshMappingModel
      rw [hfetch]
    · unfold refreshMappingModel
      rw [hfetch]
      rfl
  · intro hne hhtml
    have hbody : ¬(res.body = "" ∨ jsTrim res.body = "") := by
      rintro (h | h)
      · exact hne (by rw [h]; rfl)
      · exact hne h
    have hfetch : fetchFirstWorkingCsv url res
        = .nonCsvHtml res.status url (res.body.take 300) := by
      unfold fetchFirstWorkingCsv
      rw [if_neg (by simp [hok])]
      rw [if_neg (by simpa using hbody)]
      rw [if_pos (by simpa using hhtml)]
    refine ⟨hfetch, ?_, ?_⟩
    · unfold refreshMappingModel
      rw [hfetch]
    · unfold refreshMappingModel
      rw [hfetch]
      rfl
  · intro s₁ s₂ u₁ u₂ sn h
    exact FetchOutcome.noConfusion h

/-- Witness for C7 at a 200-response with an all-whitespace body. -/
theorem c7_fetch_failure_classification_witness :
    (jsTrim "  " = "" →
      fetchFirstWorkingCsv "u" ⟨true, 200, "OK", "  "⟩ = .emptyCsv 200 "u" ∧
      refreshMappingModel "u" ⟨true, 200, "OK", "  "⟩ [] = mappingEmptyFailure ["u"] ∧
      isOkRecord (refreshMappingModel "u" ⟨true, 200, "OK", "  "⟩ []) = false) ∧
    (jsTrim "  " ≠ "" →
      (strIncludes (jsToLower (("  " : String).take 2000)) "<html" = true ∨
       strIncludes (jsToLower (("  " : String).take 2000)) "<!doctype html" = true) →
      fetchFirstWorkingCsv "u" ⟨true, 200, "OK", "  "⟩
        = .nonCsvHtml 200 "u" (("  " : String).take 300) ∧
      refreshMappingModel "u" ⟨true, 200, "OK", "  "⟩ [] = mappingEmptyFailure ["u"] ∧
      isOkRecord (refreshMappingModel "u" ⟨true, 200, "OK", "  "⟩ []) = false) ∧
    (∀ s₁ s₂ u₁ u₂ sn,
      FetchOutcome.emptyCsv s₁ u₁ ≠ FetchOutcome.nonCsvHtml s₂ u₂ sn) :=
  c7_fetch_failure_classification "u" ⟨true, 200, "OK", "  "⟩ [] rfl

theorem mem_objSet (m : List (String × String)) (k v : String) :
    ∀ kv ∈ objSet m k v, kv = (k, v) ∨ kv ∈ m := by
  induction m with
  | nil => intro kv hkv; simpa [objSet] using hkv
  | cons x xs ih =>
      intro kv hkv
      by_cases hx : x.1 == k
      · simp only [objSet, hx, if_true] at hkv
        rcases List.mem_cons.mp hkv with hEq | hm
        · exact Or.inl hEq
        · exact Or.inr (List.mem_cons.mpr (Or.inr hm))
      · simp only [objSet, hx, if_false] at hkv
        rcases List.mem_cons.mp hkv with hEq | hm
        · exact Or.inr (List.mem_cons.mpr (Or.inl hEq))
        · rcases ih kv hm with hl | hr
          · exact Or.inl hl
          · exact Or.inr (List.mem_cons.mpr (Or.inr hr))

theorem mem_foldl_objSet (l : List (String × String))
    (m0 : List (String × String)) :
    ∀ kv ∈ l.foldl (fun m w => objSet m w.1 w.2) m0, kv ∈ m0 ∨ kv ∈ l := by
  induction l generalizing m0 with
  | nil => intro kv hkv; exact Or.inl hkv
  | cons w ws ih =>
      intro kv hkv
      rcases ih (objSet m0 w.1 w.2) kv hkv with hm | hl
      · rcases mem_objSet m0 w.1 w.2 kv hm with hEq | hm0
        · exact Or.inr (by simp [hEq])
        · exact Or.inl hm0
      · exact Or.inr (List.mem_cons.mpr (Or.inr hl))

theorem objSet_keys_nodup (m : List (String × String)) (k v : String)
    (h : (m.map Prod.fst).Nodup) : ((objSet m k v).map Prod.fst).Nodup := by
  induction m with
  | nil => simp [objSet]
  | cons x xs ih =>
      rw [List.map_cons] at h
      obtain ⟨hx_not, hxs⟩ := List.nodup_cons.mp h
      by_cases hx : x.1 == k
      · have hx' : x.1 = k := by simpa using hx
        simp only [objSet, hx, if_true, List.map_cons]
        exact List.nodup_cons.mpr ⟨by simpa [hx'] using hx_not, hxs⟩
      · simp only [objSet, hx, if_false, List.map_cons]
        refine List.nodup_cons.mpr ⟨?_, ih hxs⟩
        intro hmem
        rcases List.mem_map.mp hmem with ⟨kv, hkv, hfst⟩
        rcases mem_objSet xs k v kv hkv with hEq | hm
        · rw [hEq] at hfst
          exact absurd hfst.symm (by simpa using hx)
        · exact hx_not (hfst ▸ List.mem_map_of_mem Prod.fst hm)

theorem foldl_objSet_keys_nodup (l : List (String × String))
    (m0 : List (String × String)) (h : (m0.map Prod.fst).Nodup) :
    (((l.foldl (fun m w => objSet m w.1 w.2) m0)).map Prod.fst).Nodup := by
  induction l generalizing m0 with
  | nil => exact h
  | cons w ws ih => exact ih _ (objSet_keys_nodup m0 w.1 w.2 h)

theorem lastWrite_mem (l : List (String × String)) (a v : String)
    (h : lastWrite l a = some v) : (a, v) ∈ l := by
  induction l with
  | nil => simp [lastWrite] at h
  | cons kv rest ih =>
      simp only [lastWrite] at h
      cases hres : lastWrite rest a with
      | some w =>
          rw [hres] at h
          exact List.mem_cons.mpr (Or.inr (ih (hres.trans (by simpa using h))))
      | none =>
          rw [hres] at h
          by_cases hk : kv.1 == a
          · rw [if_pos hk] at h
            have hk' : kv.1 = a := by simpa using hk
            have hv : kv.2 = v := by simpa using h
            exact List.mem_cons.mpr (Or.inl (by rw [← hk', ← hv]))
          · rw [if_neg hk] at h
            exact Option.noConfusion h

theorem lastWrite_isSome_of_mem (l : List (String × String)) (a v : String)
    (h : (a, v) ∈ l) : ∃ w, lastWrite l a = some w := by
  induction l with
  | nil => simp at h
  | cons kv rest ih =>
      simp only [lastWrite]
      cases hres : lastWrite rest a with
      | some w => exact ⟨w, rfl⟩
      | none =>
          rcases List.mem_cons.mp h with hEq | hm
          · refine ⟨kv.2, ?_⟩
            rw [if_pos (by simp [← hEq])]
          · rcases ih hm with ⟨w, hw⟩
            rw [hw] at hres
            exact Option.noConfusion hres

theorem objGet_eq_lastWrite_of_nodup (l : List (String × String)) (a : String)
    (h : (l.map Prod.fst).Nodup) : objGet l a = lastWrite l a := by
  induction l with
  | nil => rfl
  | cons kv rest ih =>
      rw [List.map_cons] at h
      obtain ⟨hhead, htail⟩ := List.nodup_cons.mp h
      by_cases hk : kv.1 == a
      · have hk' : kv.1 = a := by simpa using hk
        have hnone : lastWrite rest a = none := by
          apply lastWrite_eq_none_of_forall
          intro w hw hwa
          exact hhead (by rw [hk', ← hwa]; exact List.mem_map_of_mem Prod.fst hw)
        simp [objGet, List.find?, lastWrite, hk, hnone]
      · have hk' : (kv.1 == a) = false := by simpa using hk
        have hfind : objGet (kv :: rest) a = objGet rest a := by
          simp [objGet, List.find?, hk']
        rw [hfind, ih htail]
        simp only [lastWrite]
        cases hres : lastWrite rest a with
        | some w => rfl
        | none => simp [hk']

/-- The guarded write of `sanitizeMappingObject`. -/
def sanitizeWriteOf (kv : String × String) : Option (String × String) :=
  if jsTrim kv.1 = "" then none
  else if jsTrim kv.2 = "" then none
  else some (jsTrim kv.1, kv.2)

theorem sanitizeMappingObject_eq (obj : List (String × String)) :
    sanitizeMappingObject obj =
      (obj.filterMap sanitizeWriteOf).foldl (fun m kv => objSet m kv.1 kv.2) [] := by
  rw [← foldl_objSet_guard]
  unfold sanitizeMappingObject
  congr 1
  funext out kv
  unfold sanitizeWriteOf
  by_cases h1 : jsTrim kv.1 = "" <;> by_cases h2 : jsTrim kv.2 = "" <;>
    simp [h1, h2]

theorem sanitizeWriteOf_some_inv (kv₀ kv : String × String)
    (h : sanitizeWriteOf kv₀ = some kv) :
    jsTrim kv₀.1 ≠ "" ∧ jsTrim kv₀.2 ≠ "" ∧ kv = (jsTrim kv₀.1, kv₀.2) := by
  unfold sanitizeWriteOf at h
  by_cases h1 : jsTrim kv₀.1 = ""
  · rw [if_pos h1] at h; exact Option.noConfusion h
  · rw [if_neg h1] at h
    by_cases h2 : jsTrim kv₀.2 = ""
    · rw [if_pos h2] at h; exact Option.noConfusion h
    · rw [if_neg h2] at h
      exact ⟨h1, h2, (Option.some.inj h).symm⟩

/-- C8 (amended): the sanitized override mapping contains exactly the
entries arising from stored entries whose trimmed key and trimmed value
are non-empty; the key is stored trimmed but the value is stored exactly
as supplied (not trimmed — see `c8_counterexample`), and empty-trimmed
values are dropped; in the merged mapping of `refresh()`, an override
entry takes precedence over the remote entry for the same key. -/
theorem c8_override_sanitize_and_precedence (obj : List (String × String)) :
    (∀ kv ∈ sanitizeMappingObject obj,
      kv.1 ≠ "" ∧ jsTrim kv.2 ≠ "" ∧
      ∃ kv₀ ∈ obj, jsTrim kv₀.1 = kv.1 ∧ kv₀.2 = kv.2) ∧
    (∀ kv₀ ∈ obj, jsTrim kv₀.1 ≠ "" → jsTrim kv₀.2 ≠ "" →
      ∃ v, objGet (sanitizeMappingObject obj) (jsTrim kv₀.1) = some v ∧
        jsTrim v ≠ "") ∧
    (∀ base k v, objGet (sanitizeMappingObject obj) k = some v →
      objGet (objSpread base (sanitizeMappingObject obj)) k = some v) := by
  refine ⟨?_, ?_, ?_⟩
  · intro kv hkv
    rw [sanitizeMappingObject_eq] at hkv
    rcases mem_foldl_objSet _ _ kv hkv with hnil | hw
    · simp at hnil
    · rcases List.mem_filterMap.mp hw with ⟨kv₀, hkv₀, hwrite⟩
      obtain ⟨h1, h2, hEq⟩ := sanitizeWriteOf_some_inv kv₀ kv hwrite
      refine ⟨?_, ?_, kv₀, hkv₀, ?_, ?_⟩
      · rw [hEq]; exact h1
      · rw [hEq]; exact h2
      · rw [hEq]
      · rw [hEq]
  · intro kv₀ hkv₀ h1 h2
    have hw : (jsTrim kv₀.1, kv₀.2) ∈ obj.filterMap sanitizeWriteOf := by
      refine List.mem_filterMap.mpr ⟨kv₀, hkv₀, ?_⟩
      unfold sanitizeWriteOf
      rw [if_neg h1, if_neg h2]
    rcases lastWrite_isSome_of_mem _ _ _ hw with ⟨w, hlw⟩
    refine ⟨w, ?_, ?_⟩
    · rw [sanitizeMappingObject_eq, objGet_foldl_objSet, hlw]
    · have hmemw := lastWrite_mem _ _ _ hlw
      rcases List.mem_filterMap.mp hmemw with ⟨kv₁, hkv₁, hwrite₁⟩
      obtain ⟨_, hv2, hEq₁⟩ := sanitizeWriteOf_some_inv kv₁ _ hwrite₁
      have : w = kv₁.2 := congrArg Prod.snd hEq₁
      rw [this]
      exact hv2
  · intro base k v hget
    have hnodup : ((sanitizeMappingObject obj).map Prod.fst).Nodup := by
      rw [sanitizeMappingObject_eq]
      exact foldl_objSet_keys_nodup _ [] (by simp)
    have hlw : lastWrite (sanitizeMappingObject obj) k = some v := by
      rw [← objGet_eq_lastWrite_of_nodup _ _ hnodup]
      exact hget
    unfold objSpread
    rw [objGet_foldl_objSet, hlw]

/-- C8 counterexample: a stored override entry with the value " v "
(whitespace around "v") is kept with its value as-is — the sanitizer does
not trim the stored value, contradicting the claim's "both key and value
stored trimmed". -/
theorem c8_counterexample :
    sanitizeMappingObject [("k", " v ")] = [("k", " v ")] ∧
    (" v " : String) ≠ "v" := by
  decide

/-- Witness for the amended C8: the entry (" a ", " b ") is sanitized to
key "a" with the untrimmed value " b ", and that override entry wins over
a remote entry for "a" in the spread merge. -/
theorem c8_override_sanitize_and_precedence_witness :
    objGet (objSpread [("a", "z")]
        (sanitizeMappingObject [("", "x"), (" a ", " b "), ("c", "  ")])) "a"
      = some " b " := by
  have h := c8_override_sanitize_and_precedence [("", "x"), (" a ", " b "), ("c", "  ")]
  exact h.2.2 [("a", "z")] "a" " b " (by decide)
